import Mathlib

/-!
Verification development for the Sonata-Ontology extraction pipeline.

The Python sources under scrutiny are:
  * `extract_structure.py`    — structure builder (`extend_metadata_with_structure`)
  * `extract_music_notation.py` — notation builder (`extend_with_music_notation`)
  * `extract_expression.py`   — expression attacher (`extend_with_expression`)
  * `extract_technical_complexity_profile.py` — complexity engine

Shallow embedding conventions used throughout:
  * A MusicXML `<measure>` element is modelled by `Measure`: its `number`
    attribute (`None` ≙ `Option.none`) and its list of children in document
    order.  Only the child shapes the studied code inspects are modelled:
    `<note>` elements (with their `<staff>` text and rest flag) and
    `<direction>` elements (with their `<staff>` text and the local tag names
    of the children of the first `<direction-type>/<dynamics>` block);
    every other child is `MChild.other`.
  * Python `int(...)` parsing of element text is modelled by `pyint`, and
    `str.strip()/lower()/upper()` by `strTrim`/`strLower`/`strUpper`;
    Python truthiness of a text is modelled by an emptiness test.
  * Python strings are Lean `String`s, Python ints are `Int`/`Nat`.
-/

set_option linter.unusedVariables false

/-- A child of a MusicXML `<measure>` element, restricted to the shapes the
extraction passes inspect: a `<note>` (staff text, rest flag), a `<direction>`
(staff text, tag names of the loudness block children), or anything else. -/
inductive MChild where
  | note (staffText : Option String) (isRest : Bool)
  | direction (staffText : Option String) (dynTags : List String)
  | other
deriving DecidableEq, Repr

/-- A MusicXML `<measure>` element as exposed to the extraction passes:
its `number` attribute and its children in document order. -/
structure Measure where
  number : Option String
  children : List MChild
deriving DecidableEq, Repr

/-- A movement segment as produced by `detect_movements`
(`{"movement_index": …, "start_idx": …, "end_idx": …}`). -/
structure Segment where
  movementIndex : Nat
  start : Nat
  stop : Nat
deriving DecidableEq, Repr

/-- The enumeration loop of `detect_movements` (extract_structure.py lines
38-41): the list of positions (counting from `i`) of the measures whose
`number` attribute is exactly the literal `"1"`. -/
def startsFrom (i : Nat) : List Measure → List Nat
  | [] => []
  | m :: tl =>
    (if m.number = some "1" then [i] else []) ++ startsFrom (i + 1) tl

/-- The segment-construction loop of `detect_movements` (extract_structure.py
lines 46-57): each start index opens a movement that ends at the next start
index, or at `n` for the last one; movement indices count up from `k`. -/
def buildSegments (k : Nat) : List Nat → Nat → List Segment
  | [], _ => []
  | s :: rest, n => ⟨k, s, rest.headD n⟩ :: buildSegments (k + 1) rest n

/-- `detect_movements` (extract_structure.py lines 37-57; the same function is
duplicated verbatim in extract_music_notation.py lines 40-60 and
extract_expression.py lines 47-79).  Measures labelled exactly `"1"` open
movements; with no such label the whole sequence is one movement. -/
def detect_movements (ms : List Measure) : List Segment :=
  let starts := startsFrom 0 ms
  if starts = [] then [⟨1, 0, ms.length⟩]
  else buildSegments 1 (starts.mergeSort (fun a b => Nat.ble a b)) ms.length

/-- The measure positions visited by the notation/expression passes, paired
with the movement index of the enclosing segment: the two passes iterate the
segments of `detect_movements` in order, and inside each segment the measure
indices `start_idx, …, end_idx - 1` in order. -/
def visitedRaw (ms : List Measure) : List (Nat × Nat) :=
  (detect_movements ms).flatMap fun seg =>
    (List.range' seg.start (seg.stop - seg.start)).map fun i => (seg.movementIndex, i)

/-- The default measure used for (unreachable) out-of-range indexing. -/
def emptyMeasure : Measure := ⟨none, []⟩

/-- Whitespace as stripped by Python's `str.strip()` (ASCII subset; the
labels and staff texts this pipeline manipulates are ASCII). -/
def isPySpace (c : Char) : Bool :=
  c = ' ' || c = '\t' || c = '\n' || c = '\r' || c = '\x0b' || c = '\x0c'

/-- Python `str.strip()`. -/
def strTrim (s : String) : String :=
  String.mk (((s.data.dropWhile isPySpace).reverse.dropWhile isPySpace).reverse)

/-- Python `str.lower()` (ASCII semantics, which covers every literal the
sources compare against). -/
def strLower (s : String) : String := String.mk (s.data.map Char.toLower)

/-- Python `str.upper()` (ASCII semantics). -/
def strUpper (s : String) : String := String.mk (s.data.map Char.toUpper)

/-- Digit-string accumulator for `pyint`. -/
def digitsToNat (acc : Nat) : List Char → Option Nat
  | [] => some acc
  | c :: cs =>
    if c.isDigit then digitsToNat (acc * 10 + (c.toNat - '0'.toNat)) cs else none

/-- Python `int(text)` on a string: strip whitespace, then an optional sign
followed by at least one digit.  (Python additionally accepts underscore
digit-group separators; no claim depends on that spelling.)  `none` models
the raised `ValueError`. -/
def pyint (s : String) : Option Int :=
  match (strTrim s).data with
  | [] => none
  | '-' :: cs =>
    if cs = [] then none else (digitsToNat 0 cs).map fun n => -(n : Int)
  | '+' :: cs =>
    if cs = [] then none else (digitsToNat 0 cs).map fun n => (n : Int)
  | cs => (digitsToNat 0 cs).map fun n => (n : Int)

namespace NotationPass

/-- `sanitize_measure_number` (extract_music_notation.py lines 63-66): an empty
or missing label falls back to the 1-based positional index; every
non-alphanumeric character is replaced by `_`. -/
def sanitize_measure_number (raw : Option String) (fallback : Nat) : String :=
  let s := match raw with
    | none => toString fallback
    | some s => if s = "" then toString fallback else s
  String.mk (s.toList.map fun ch => if ch.isAlphanum then ch else '_')

/-- Python `f"{n:06d}"` for a non-negative counter: left-pad the decimal
representation with zeros to width 6. -/
def pad6 (n : Nat) : String :=
  let s := toString n
  if s.length < 6 then String.mk (List.replicate (6 - s.length) '0') ++ s else s

/-- The event id built by `extend_with_music_notation`
(extract_music_notation.py lines 438-444):
`so:{work}_M{movement}_Measure_{sanitized}_Event_{counter:06d}`. -/
def event_id (workLocalId : String) (movementIndex : Nat) (raw : Option String)
    (fallback : Nat) (counter : Nat) : String :=
  "so:" ++ workLocalId ++ "_M" ++ toString movementIndex ++ "_Measure_" ++
    sanitize_measure_number raw fallback ++ "_Event_" ++ pad6 counter

/-- `map_duration_class` (extract_music_notation.py lines 108-137). -/
def map_duration_class (note_type : Option String) (dots : Nat) : Option String :=
  match note_type with
  | none => none
  | some s =>
    let t := strLower (strTrim s)
    if dots = 0 then
      if t = "whole" then some "so:WholeNote"
      else if t = "half" then some "so:HalfNote"
      else if t = "quarter" then some "so:QuarterNote"
      else if t = "eighth" then some "so:EighthNote"
      else if t = "16th" then some "so:SixteenthNote"
      else if t = "32nd" then some "so:ThirtySecondNote"
      else if t = "64th" then some "so:SixtyFourthNote"
      else none
    else if dots = 1 then
      if t = "whole" then none
      else if t = "half" then some "so:DottedHalf"
      else if t = "quarter" then some "so:DottedQuarter"
      else if t = "eighth" then some "so:DottedEighth"
      else none
    else none

/-- The `<pitch>` element of a `<note>`: `<step>` and `<octave>` texts
(`none` when the child element is absent or has no text). -/
structure PitchXml where
  step : Option String
  octave : Option String
deriving DecidableEq, Repr

/-- The parts of a `<note>` element inspected by the pitch block of
`extend_with_music_notation` (lines 500-529). -/
structure NoteXml where
  isRest : Bool
  pitch : Option PitchXml
deriving DecidableEq, Repr

/-- The normalised step letter of a pitch element: Python computes
`step_el.text.strip().upper()` when the step element exists and its text is
truthy (non-empty), and `None` otherwise (line 506). -/
def stepNorm (p : PitchXml) : Option String :=
  match p.step with
  | none => none
  | some s => if s = "" then none else some (strUpper (strTrim s))

/-- The step letters accepted by line 514 (`step in {"A",…,"G"}`). -/
def pitch_letters : List String := ["A", "B", "C", "D", "E", "F", "G"]

/-- Whether the pitch block of `extend_with_music_notation` (lines 500-529)
creates a Pitch node for this note: the note is not a rest, has a `<pitch>`
element, and its normalised step is one of the seven letters.  The octave is
read (lines 507-512, stored on the event when present) but plays no role in
this decision. -/
def pitch_node_created (n : NoteXml) : Bool :=
  if n.isRest then false
  else match n.pitch with
    | none => false
    | some p =>
      match stepNorm p with
      | some st => pitch_letters.contains st
      | none => false

end NotationPass

namespace NotationPass

/-- `meas_el.findall("note")`: the note children of a measure, in document
order (extract_music_notation.py line 427). -/
def measureNotes (m : Measure) : List MChild :=
  m.children.filter fun c => match c with
    | MChild.note _ _ => true
    | _ => false

/-- One symbolic event as indexed by the notation builder: the allocated
global event ordinal, the movement index of the enclosing segment, and the
position of the enclosing measure in the flat measure sequence. -/
structure NEvent where
  ordinal : Nat
  movementIndex : Nat
  measurePos : Nat
deriving DecidableEq, Repr

/-- The inner note loop of `extend_with_music_notation` (lines 427-444): one
event per note child, consuming consecutive counter values starting at `c`. -/
def assignMeasure (c : Nat) (mv i : Nat) : List MChild → List NEvent
  | [] => []
  | _ :: tl => ⟨c, mv, i⟩ :: assignMeasure (c + 1) mv i tl

/-- The measure loop of `extend_with_music_notation` (lines 223-228 and
427-444), restricted to the event-counter bookkeeping: visit the measure
positions of `visitedRaw` in order, threading the single `global_event_counter`
across all movements. -/
def assignAll (c : Nat) (ms : List Measure) : List (Nat × Nat) → List NEvent
  | [] => []
  | (mv, i) :: rest =>
    let notes := measureNotes (ms.getD i emptyMeasure)
    assignMeasure c mv i notes ++ assignAll (c + notes.length) ms rest

/-- All symbolic events created by `extend_with_music_notation`, with their
event ordinals; `global_event_counter` starts at 1 (line 221). -/
def notationEvents (ms : List Measure) : List NEvent :=
  assignAll 1 ms (visitedRaw ms)

/-- The total number of note-or-rest elements of the whole input work. -/
def totalNotes (ms : List Measure) : Nat :=
  (ms.map fun m => (measureNotes m).length).sum

end NotationPass

namespace ExpressionPass

/-- `sanitize_measure_number` (extract_expression.py lines 82-91); textually
the same helper as in extract_music_notation.py. -/
def sanitize_measure_number (raw : Option String) (fallback : Nat) : String :=
  let s := match raw with
    | none => toString fallback
    | some s => if s = "" then toString fallback else s
  String.mk (s.toList.map fun ch => if ch.isAlphanum then ch else '_')

/-- Python `f"{n:06d}"`, as used at extract_expression.py line 396. -/
def pad6 (n : Nat) : String :=
  let s := toString n
  if s.length < 6 then String.mk (List.replicate (6 - s.length) '0') ++ s else s

/-- The event id built by `extend_with_expression`
(extract_expression.py lines 395-402). -/
def event_id (workLocalId : String) (movementIndex : Nat) (raw : Option String)
    (fallback : Nat) (counter : Nat) : String :=
  "so:" ++ workLocalId ++ "_M" ++ toString movementIndex ++ "_Measure_" ++
    sanitize_measure_number raw fallback ++ "_Event_" ++ pad6 counter

/-- `LOUDNESS_DYNAMIC_VALUES` (extract_expression.py lines 141-144). -/
def LOUDNESS_DYNAMIC_VALUES : List String :=
  ["ppp", "pp", "p", "mp", "mf", "f", "ff", "fff", "sf", "sfp", "fp", "pf"]

/-- `parse_direction_dynamics` (lines 171-190): lowercase each child tag of
the `<direction-type>/<dynamics>` block and keep the recognised loudness
values, in order. -/
def parse_direction_dynamics (dynTags : List String) : List String :=
  dynTags.filterMap fun tag =>
    let d := strLower tag
    if LOUDNESS_DYNAMIC_VALUES.contains d then some d else none

/-- Staff-index resolution used by both passes (`int(staff_el.text.strip())`
with default 1 on a missing/empty/unparsable text; extract_expression.py
lines 369-375 and 387-393). -/
def parse_staff_index (staffText : Option String) : Int :=
  match staffText with
  | none => 1
  | some s => if s = "" then 1 else (pyint (strTrim s)).getD 1

/-- One resolved pending-dynamics attachment: the direction child that
contributed the marking (`dirPos`), the note child that received it
(`notePos`), the staff both resolved to, and the (lowercased) loudness
token. -/
structure Attach where
  dirPos : Nat
  notePos : Nat
  staff : Int
  token : String
deriving DecidableEq, Repr

/-- Children paired with their document positions, starting at `i`. -/
def withIdx (i : Nat) : List MChild → List (Nat × MChild)
  | [] => []
  | c :: tl => (i, c) :: withIdx (i + 1) tl

/-- The child loop of `extend_with_expression` (lines 361-416), restricted to
the `pending_dynamics_by_staff` bookkeeping.  The queue maps a staff index to
the pending `(origin position, token)` pairs; a direction extends the queue of
its staff, a note flushes (and clears) the queue of its staff onto itself.
The origin position stored with each token is ghost instrumentation: it does
not influence control flow, it only records which direction contributed the
token.  (In the source a direction with no recognised loudness token leaves
the dictionary untouched, and a note with an empty queue skips the clearing
assignment; both coincide extensionally with the unconditional update
performed here.) -/
def expr_walk (q : Int → List (Nat × String)) : List (Nat × MChild) → List Attach
  | [] => []
  | (i, MChild.direction stext tags) :: rest =>
    let toks := parse_direction_dynamics tags
    let s := parse_staff_index stext
    expr_walk (Function.update q s (q s ++ toks.map fun t => (i, t))) rest
  | (i, MChild.note stext _) :: rest =>
    let s := parse_staff_index stext
    ((q s).map fun p => ⟨p.1, i, s, p.2⟩) ++ expr_walk (Function.update q s []) rest
  | (_, MChild.other) :: rest => expr_walk q rest

/-- The pending-dynamics attachments produced while walking one measure's
children: `pending_dynamics_by_staff` starts empty at the beginning of every
measure (extract_expression.py line 356). -/
def exprMeasureAttach (children : List MChild) : List Attach :=
  expr_walk (fun _ => []) (withIdx 0 children)

/-- The whole expression pass, restricted to pending-dynamics attachments:
the same segment/measure traversal as the notation pass, with the pending
queue re-initialised at the start of each measure.  Each attachment is tagged
with the position of its measure.  (The event/dynamic id counters of the
source are not modelled here; they do not influence which event a pending
marking binds to.) -/
def expression_attachments (ms : List Measure) : List (Nat × Attach) :=
  (visitedRaw ms).flatMap fun p =>
    (exprMeasureAttach (ms.getD p.2 emptyMeasure).children).map fun a => (p.2, a)

/-- The position of the first note child on staff `s`, in an indexed child
suffix. -/
def firstNoteIdx (s : Int) : List (Nat × MChild) → Option Nat
  | [] => none
  | (i, MChild.note stext _) :: rest =>
    if parse_staff_index stext = s then some i else firstNoteIdx s rest
  | _ :: rest => firstNoteIdx s rest

/-- Declarative per-direction binding: each loudness token of each direction
is bound to the first following note child on the direction's staff (and
dropped when no such note follows in the measure). -/
def dirBound : List (Nat × MChild) → List Attach
  | [] => []
  | (i, MChild.direction stext tags) :: rest =>
    let s := parse_staff_index stext
    ((parse_direction_dynamics tags).filterMap fun t =>
        (firstNoteIdx s rest).map fun k => ⟨i, k, s, t⟩) ++ dirBound rest
  | _ :: rest => dirBound rest

/-- The specification of one pending-dynamics attachment over the plain child
list: `a.dirPos` is a direction resolving to `a.staff` carrying `a.token`,
`a.notePos` is a note on that same staff after it, and no note on that staff
lies strictly between the two. -/
def BindSpec (children : List MChild) (a : Attach) : Prop :=
  (∃ stext tags, children[a.dirPos]? = some (MChild.direction stext tags) ∧
      a.staff = parse_staff_index stext ∧ a.token ∈ parse_direction_dynamics tags) ∧
  a.dirPos < a.notePos ∧
  (∃ stext r, children[a.notePos]? = some (MChild.note stext r) ∧
      parse_staff_index stext = a.staff) ∧
  ∀ j stext r, a.dirPos < j → j < a.notePos →
    children[j]? = some (MChild.note stext r) → parse_staff_index stext ≠ a.staff

end ExpressionPass

namespace ComplexityPass

/-- The six configured weights (`LOCAL_COMPLEXITY_WEIGHTS`,
extract_technical_complexity_profile.py lines 22-29), generalised to an
arbitrary configuration; Python floats are modelled as exact rationals. -/
structure Weights where
  noteCount : ℚ
  measureAccidentalCount : ℚ
  subdivisionIndex : ℚ
  minNoteValue : ℚ
  dynamicCount : ℚ
  articulationCount : ℚ
deriving DecidableEq, Repr

/-- The concrete weight configuration of the source (lines 22-29). -/
def LOCAL_COMPLEXITY_WEIGHTS : Weights :=
  ⟨306 / 100, 431 / 100, 375 / 100, 368 / 100, 368 / 100, 443 / 100⟩

/-- The six raw per-measure metrics as gathered for one measure before
normalisation (lines 317-321 and 362-367); the raw values computed by the
source are integers, modelled here as rationals since they immediately feed
rational arithmetic. -/
structure RawMetrics where
  noteCount : ℚ
  measureAccidentalCount : ℚ
  subdivisionIndex : ℚ
  minNoteValue : ℚ
  dynamicCount : ℚ
  articulationCount : ℚ
deriving DecidableEq, Repr

/-- `safe_minmax` (lines 105-111): `(0, 0)` on an empty list, else the
minimum and maximum (Python `min`/`max` fold from the first element). -/
def safe_minmax (values : List ℚ) : ℚ × ℚ :=
  match values with
  | [] => (0, 0)
  | x :: xs => (xs.foldl min x, xs.foldl max x)

/-- `safe_normalize` (lines 114-120). -/
def safe_normalize (value vmin vmax : ℚ) : ℚ :=
  if vmax ≤ vmin then 0 else (value - vmin) / (vmax - vmin)

/-- `w_sum = sum(max(v, 0.0) for v in w.values())` (line 344); the insertion
order of the dict is the declaration order of the six weights. -/
def wsum (w : Weights) : ℚ :=
  max w.noteCount 0 + max w.measureAccidentalCount 0 + max w.subdivisionIndex 0 +
    max w.minNoteValue 0 + max w.dynamicCount 0 + max w.articulationCount 0

/-- The six normalised weights (lines 345-353): an equal `1/6` split when
`w_sum <= 0`, else each clamped weight divided by `w_sum`. -/
def normWeights (w : Weights) : Weights :=
  if wsum w ≤ 0 then ⟨1 / 6, 1 / 6, 1 / 6, 1 / 6, 1 / 6, 1 / 6⟩
  else
    ⟨max w.noteCount 0 / wsum w, max w.measureAccidentalCount 0 / wsum w,
      max w.subdivisionIndex 0 / wsum w, max w.minNoteValue 0 / wsum w,
      max w.dynamicCount 0 / wsum w, max w.articulationCount 0 / wsum w⟩

/-- Python `round(x, 4)` modelled with Mathlib's `round` (the two differ only
in the tie-breaking rule at exact `5·10⁻⁵` boundaries, which no claim below
depends on). -/
def round4 (x : ℚ) : ℚ := (round (x * 10000) : ℤ) / 10000

/-- The LCI computation of `compute_technical_complexity_profiles`
(lines 327-422), one input record per measure: min-max bounds are taken per
metric across the whole population (lines 328-340), each measure's metrics
are normalised with `safe_normalize` (lines 370-375), combined with the
normalised weights (lines 377-385) and the written `so:LCIvalue` is the
4-decimal rounding (line 422).  The list entry at each position is the
LCIvalue written for the corresponding measure. -/
def computeLCI (w : Weights) (ms : List RawMetrics) : List ℚ :=
  let nc := safe_minmax (ms.map fun m => m.noteCount)
  let acc := safe_minmax (ms.map fun m => m.measureAccidentalCount)
  let sub := safe_minmax (ms.map fun m => m.subdivisionIndex)
  let minv := safe_minmax (ms.map fun m => m.minNoteValue)
  let dyn := safe_minmax (ms.map fun m => m.dynamicCount)
  let art := safe_minmax (ms.map fun m => m.articulationCount)
  let nw := normWeights w
  ms.map fun m =>
    round4 (nw.noteCount * safe_normalize m.noteCount nc.1 nc.2 +
      nw.measureAccidentalCount * safe_normalize m.measureAccidentalCount acc.1 acc.2 +
      nw.subdivisionIndex * safe_normalize m.subdivisionIndex sub.1 sub.2 +
      nw.minNoteValue * safe_normalize m.minNoteValue minv.1 minv.2 +
      nw.dynamicCount * safe_normalize m.dynamicCount dyn.1 dyn.2 +
      nw.articulationCount * safe_normalize m.articulationCount art.1 art.2)

/-- The sum of the six normalised weights. -/
def sumNormWeights (w : Weights) : ℚ :=
  (normWeights w).noteCount + (normWeights w).measureAccidentalCount +
    (normWeights w).subdivisionIndex + (normWeights w).minNoteValue +
    (normWeights w).dynamicCount + (normWeights w).articulationCount

end ComplexityPass

namespace StructurePass

/-- An entry of a JSON list as inspected by `append_unique_id_ref` and the
type-merging loops: either a recognised item carrying a string
(`{"@id": s}` in a reference list, the string `s` itself in a type list), or
any other JSON value, which those loops preserve but never match. -/
inductive GItem where
  | str (s : String)
  | blob
deriving DecidableEq, Repr

/-- A scalar JSON value as stored in the properties this pass writes:
an integer, a string, or any other value (never compared against the written
ones). -/
inductive JVal where
  | jint (n : Int)
  | jstr (s : String)
  | jblob
deriving DecidableEq, Repr

/-- A node of the `@graph` list, projected onto the keys
`extend_metadata_with_structure` reads or writes.  `id` is `@id` (`none` for
a node without a usable `@id`, which the pass never touches), `types` is
`@type` (a bare string and a missing key are identified with the one-element
and empty lists — the pass treats them identically and rewrites them as
lists), the six reference-list fields are the corresponding `so:` keys
(`None`/single-object/other values are identified with the lists
`[]`/`[x]`/`[]` exactly as `append_unique_id_ref` normalises them), and
`other` carries all remaining properties untouched by this pass. -/
structure SNode where
  id : Option String := none
  types : List GItem := []
  hasMovement : List GItem := []
  movementHasStaff : List GItem := []
  sonataMovementHasPianoStaff : List GItem := []
  movementHasMeasure : List GItem := []
  staffHasMeasure : List GItem := []
  isMeasureOfStaff : List GItem := []
  movementIndex : Option JVal := none
  staffIndex : Option JVal := none
  number : Option JVal := none
  other : List (String × JVal) := []
deriving DecidableEq, Repr

/-- The node with the property values this pass writes blanked out; two
graphs with the same image under `core` have the same ids, types and
reference lists everywhere. -/
def core (n : SNode) : SNode :=
  { n with movementIndex := none, staffIndex := none, number := none }

/-- `node_by_id` lookup: the source indexes the graph list front to back, so
a duplicated `@id` resolves to its last occurrence. -/
def lookupLast : List SNode → String → Option SNode
  | [], _ => none
  | n :: rest, nid =>
    match lookupLast rest nid with
    | some m => some m
    | none => if n.id = some nid then some n else none

/-- In-place mutation of the node `node_by_id` resolves `nid` to: rewrite the
last node of the list whose `@id` is `nid` (no-op when absent). -/
def updateLast : List SNode → String → (SNode → SNode) → List SNode
  | [], _, _ => []
  | n :: rest, nid, f =>
    if rest.any (fun m => m.id = some nid) then n :: updateLast rest nid f
    else if n.id = some nid then f n :: rest
    else n :: rest

/-- The membership test `any(isinstance(item, dict) and item.get("@id") ==
new_id …)` of `append_unique_id_ref`, and the `t not in types` test of the
type-merging loops. -/
def hasStr (l : List GItem) (s : String) : Bool :=
  l.any fun it => it = GItem.str s

/-- `append_unique_id_ref` (extract_structure.py lines 107-120) on the
normalised reference list. -/
def append_unique_id_ref (l : List GItem) (t : String) : List GItem :=
  if hasStr l t then l else l ++ [GItem.str t]

/-- The type-merging loop `for t in base: if t not in types: types.append(t)`
used at lines 199-201, 224-226, 257-259 and 307-309. -/
def mergeStr (base : List String) (l : List GItem) : List GItem :=
  base.foldl (fun acc t => if hasStr acc t then acc else acc ++ [GItem.str t]) l

/-- `get_or_create` shape shared by the work/movement/staff/measure blocks:
append a freshly built node when the id is absent, otherwise mutate the
existing one. -/
def goc (g : List SNode) (nid : String) (init : SNode) (onExist : SNode → SNode) :
    List SNode :=
  match lookupLast g nid with
  | none => g ++ [init]
  | some _ => updateLast g nid onExist

def work_iri (wl : String) : String := "so:" ++ wl

def movement_id (wl : String) (k : Nat) : String :=
  "so:" ++ wl ++ "_M" ++ toString k

def staff_id (wl : String) (k sidx : Nat) : String :=
  "so:" ++ wl ++ "_M" ++ toString k ++ "_Staff_" ++ toString sidx

def measure_id (wl : String) (k : Nat) (sanitized : String) : String :=
  "so:" ++ wl ++ "_M" ++ toString k ++ "_Measure_" ++ sanitized

def work_types : List String := ["mo:MusicalWork", "so:Sonata"]

def movement_types : List String :=
  ["mso:Movement", "so:SonataMovement", "so:StructuralElement"]

def staff_base_types : List String := ["mso:Staff", "so:PianoStaff", "so:StructuralElement"]

/-- The `@type` list a freshly created staff node receives (lines 240-245). -/
def staffCreateTypes (sidx : Nat) : List String :=
  staff_base_types ++
    (if sidx = 1 then ["so:UpperPianoStaff"]
     else if sidx = 2 then ["so:LowerPianoStaff"] else [])

def measure_types : List String := ["mso:Measure", "so:StructuralElement"]

/-- `sanitize_measure_number` (extract_structure.py lines 94-97). -/
def sanitize_measure_number (raw : Option String) (fallback : Nat) : String :=
  let s := match raw with
    | none => toString fallback
    | some s => if s = "" then toString fallback else s
  String.mk (s.toList.map fun ch => if ch.isAlphanum then ch else '_')

/-- `value_for_number` (line 294): `parse_int_or_keep_string(raw)` when the
raw label is truthy, else the 1-based position `i + 1`. -/
def value_for_number (raw : Option String) (i : Nat) : JVal :=
  match raw with
  | some s =>
    if s = "" then JVal.jint (Int.ofNat (i + 1))
    else match pyint s with
      | some k => JVal.jint k
      | none => JVal.jstr s
  | none => JVal.jint (Int.ofNat (i + 1))

/-- The staff ids collected in `staff_ids_for_movement` (lines 235-268). -/
def staffIds (wl : String) (k ns : Nat) : List String :=
  (List.range' 1 ns).map (staff_id wl k)

/-- The staff loop (lines 235-268): get-or-create each staff node, with role
types for staves 1 and 2, setting `so:staffIndex` in both branches. -/
def staffWork (wl : String) (k ns : Nat) (g : List SNode) : List SNode :=
  (List.range' 1 ns).foldl
    (fun g sidx =>
      goc g (staff_id wl k sidx)
        { id := some (staff_id wl k sidx),
          types := (staffCreateTypes sidx).map GItem.str,
          staffIndex := some (JVal.jint (Int.ofNat sidx)) }
        (fun n =>
          let ts := mergeStr staff_base_types n.types
          let ts := if sidx = 1 then mergeStr ["so:UpperPianoStaff"] ts else ts
          let ts := if sidx = 2 then mergeStr ["so:LowerPianoStaff"] ts else ts
          { n with types := ts, staffIndex := some (JVal.jint (Int.ofNat sidx)) }))
    g

/-- The movement↔staff linking loop (lines 270-280). -/
def linkMovementStaffs (wl : String) (k ns : Nat) (g : List SNode) : List SNode :=
  (staffIds wl k ns).foldl
    (fun g sid =>
      let g := updateLast g (movement_id wl k) fun n =>
        { n with movementHasStaff := append_unique_id_ref n.movementHasStaff sid }
      updateLast g (movement_id wl k) fun n =>
        { n with sonataMovementHasPianoStaff :=
            append_unique_id_ref n.sonataMovementHasPianoStaff sid })
    g

/-- One iteration of the measure loop (lines 285-319): get-or-create the
measure node; a fresh node carries the `@type` list, `so:number` and the full
staff reference list, an existing one gets the types merged and the staff
references appended one by one. -/
def measureStep (wl : String) (k ns : Nat) (ms : List Measure) (g : List SNode)
    (i : Nat) : List SNode :=
  let m := ms.getD i emptyMeasure
  let mid := measure_id wl k (sanitize_measure_number m.number (i + 1))
  goc g mid
    { id := some mid,
      types := measure_types.map GItem.str,
      isMeasureOfStaff := (staffIds wl k ns).map GItem.str,
      number := some (value_for_number m.number i) }
    (fun n =>
      { n with types := mergeStr measure_types n.types,
               isMeasureOfStaff :=
                 (staffIds wl k ns).foldl append_unique_id_ref n.isMeasureOfStaff })

/-- The measure ids collected in `measure_ids_for_movement` (line 319); they
are a pure function of the inputs, independent of the graph state. -/
def segMeasureIds (wl : String) (ms : List Measure) (seg : Segment) : List String :=
  (List.range' seg.start (seg.stop - seg.start)).map fun i =>
    measure_id wl seg.movementIndex
      (sanitize_measure_number (ms.getD i emptyMeasure).number (i + 1))

/-- The movement-node get-or-create (lines 212-228). -/
def mvGocStep (wl : String) (seg : Segment) (g : List SNode) : List SNode :=
  goc g (movement_id wl seg.movementIndex)
    { id := some (movement_id wl seg.movementIndex),
      types := movement_types.map GItem.str }
    (fun n => { n with types := mergeStr movement_types n.types })

/-- `movement_node["so:movementIndex"] = movement_index` (line 229). -/
def mvIdxStep (wl : String) (seg : Segment) (g : List SNode) : List SNode :=
  updateLast g (movement_id wl seg.movementIndex) fun n =>
    { n with movementIndex := some (JVal.jint (Int.ofNat seg.movementIndex)) }

/-- The measure loop (lines 285-319). -/
def measuresFold (wl : String) (ns : Nat) (ms : List Measure) (seg : Segment)
    (g : List SNode) : List SNode :=
  (List.range' seg.start (seg.stop - seg.start)).foldl
    (measureStep wl seg.movementIndex ns ms) g

/-- The movement→measure linking loop (lines 321-325). -/
def mhmFold (wl : String) (ms : List Measure) (seg : Segment)
    (g : List SNode) : List SNode :=
  (segMeasureIds wl ms seg).foldl
    (fun g mid => updateLast g (movement_id wl seg.movementIndex) fun n =>
      { n with movementHasMeasure := append_unique_id_ref n.movementHasMeasure mid })
    g

/-- The staff→measure linking loop (lines 327-332). -/
def shmFold (wl : String) (ns : Nat) (ms : List Measure) (seg : Segment)
    (g : List SNode) : List SNode :=
  (staffIds wl seg.movementIndex ns).foldl
    (fun g sid => (segMeasureIds wl ms seg).foldl
      (fun g mid => updateLast g sid fun n =>
        { n with staffHasMeasure := append_unique_id_ref n.staffHasMeasure mid })
      g)
    g

/-- The body of the movement loop (lines 207-334): movement node, staves,
movement↔staff links, measures, movement→measure links, staff→measure
links. -/
def movementStep (wl : String) (ns : Nat) (ms : List Measure) (g : List SNode)
    (seg : Segment) : List SNode :=
  shmFold wl ns ms seg (mhmFold wl ms seg (measuresFold wl ns ms seg
    (linkMovementStaffs wl seg.movementIndex ns
      (staffWork wl seg.movementIndex ns (mvIdxStep wl seg (mvGocStep wl seg g))))))

/-- The work-node get-or-create (lines 186-202). -/
def workStep (wl : String) (g : List SNode) : List SNode :=
  goc g (work_iri wl)
    { id := some (work_iri wl), types := work_types.map GItem.str }
    (fun n => { n with types := mergeStr work_types n.types })

/-- The work→movement linking loop (lines 336-340). -/
def workRefsFold (wl : String) (segs : List Segment) (g : List SNode) : List SNode :=
  (segs.map fun seg => movement_id wl seg.movementIndex).foldl
    (fun g mid => updateLast g (work_iri wl) fun n =>
      { n with hasMovement := append_unique_id_ref n.hasMovement mid })
    g

/-- `extend_metadata_with_structure` (extract_structure.py lines 127-343),
restricted to the graph transformation: inputs are the work local id derived
from the file name, the measure sequence of the first `<part>`, the detected
staff count and the `@graph` list of the loaded JSON-LD document.  The
`@context` bookkeeping (lines 167-174) touches no graph node and is omitted. -/
def extend_metadata_with_structure (wl : String) (ms : List Measure) (ns : Nat)
    (g : List SNode) : List SNode :=
  workRefsFold wl (detect_movements ms)
    ((detect_movements ms).foldl (movementStep wl ns ms) (workStep wl g))

/-- The edge set of one reference-list property: all `(source @id, target
@id)` pairs contributed by recognised `{"@id": …}` entries. -/
def edges (fld : SNode → List GItem) (g : List SNode) : List (String × String) :=
  g.flatMap fun n =>
    match n.id with
    | some s => (fld n).filterMap fun it =>
        match it with
        | GItem.str t => some (s, t)
        | GItem.blob => none
    | none => []

end StructurePass

namespace StructurePass

/-- Index of the six reference-list fields of `SNode`. -/
inductive RF where
  | hm | mhs | smhps | mhm | shm | imos
deriving DecidableEq, Repr

/-- The reference-list field selected by an `RF` index. -/
def getRF : RF → SNode → List GItem
  | RF.hm => fun n => n.hasMovement
  | RF.mhs => fun n => n.movementHasStaff
  | RF.smhps => fun n => n.sonataMovementHasPianoStaff
  | RF.mhm => fun n => n.movementHasMeasure
  | RF.shm => fun n => n.staffHasMeasure
  | RF.imos => fun n => n.isMeasureOfStaff

/-- A node with this `@id` exists in the graph. -/
def MemId (g : List SNode) (s : String) : Prop :=
  ∃ n, lookupLast g s = some n

/-- The node resolved by `s` carries the type tag `t`. -/
def FactT (g : List SNode) (s t : String) : Prop :=
  ∃ n, lookupLast g s = some n ∧ hasStr n.types t = true

/-- The node resolved by `s` carries a reference to `t` in the field `r`. -/
def FactR (r : RF) (g : List SNode) (s t : String) : Prop :=
  ∃ n, lookupLast g s = some n ∧ hasStr (getRF r n) t = true

/-- Monotonicity of a graph transformation with respect to the facts above:
ids stay resolvable and type tags and references are never removed. -/
def Preserves (g h : List SNode) : Prop :=
  (∀ s, MemId g s → MemId h s) ∧
  (∀ s t, FactT g s t → FactT h s t) ∧
  (∀ r s t, FactR r g s t → FactR r h s t)

/-- Everything one movement segment's processing guarantees about its output
graph. -/
def SegFacts (wl : String) (ns : Nat) (ms : List Measure) (seg : Segment)
    (g : List SNode) : Prop :=
  (∀ t ∈ movement_types, FactT g (movement_id wl seg.movementIndex) t) ∧
  (∀ sidx ∈ List.range' 1 ns, ∀ t ∈ staffCreateTypes sidx,
    FactT g (staff_id wl seg.movementIndex sidx) t) ∧
  (∀ sid ∈ staffIds wl seg.movementIndex ns,
    FactR RF.mhs g (movement_id wl seg.movementIndex) sid ∧
    FactR RF.smhps g (movement_id wl seg.movementIndex) sid) ∧
  (∀ mid ∈ segMeasureIds wl ms seg,
    (∀ t ∈ measure_types, FactT g mid t) ∧
    (∀ sid ∈ staffIds wl seg.movementIndex ns, FactR RF.imos g mid sid) ∧
    FactR RF.mhm g (movement_id wl seg.movementIndex) mid ∧
    (∀ sid ∈ staffIds wl seg.movementIndex ns, FactR RF.shm g sid mid))

/-- Everything one run of the structure builder guarantees about its output
graph. -/
def AllFacts (wl : String) (ms : List Measure) (ns : Nat) (g : List SNode) : Prop :=
  (∀ t ∈ work_types, FactT g (work_iri wl) t) ∧
  (∀ seg ∈ detect_movements ms, SegFacts wl ns ms seg g) ∧
  (∀ seg ∈ detect_movements ms,
    FactR RF.hm g (work_iri wl) (movement_id wl seg.movementIndex))

end StructurePass

/-- Claim C1: for every structural position (movement index, raw measure
label with its positional fallback, global event ordinal), the event id
string computed by the Notation Builder (`extend_with_music_notation`) and
the one computed by the Expression Attacher (`extend_with_expression`) are
identical, so the two passes resolve to the same node without shared state. -/
theorem C1_event_id_cross_pass_agreement :
    ∀ (workLocalId : String) (movementIndex : Nat) (raw : Option String)
      (fallback counter : Nat),
      NotationPass.event_id workLocalId movementIndex raw fallback counter =
        ExpressionPass.event_id workLocalId movementIndex raw fallback counter :=
  fun _ _ _ _ _ => rfl

/-- Claim C8: the duration-class table maps the seven undotted types to their
classes (in particular `"16th"` with 0 dots to the sixteenth-note class);
with one dot only half/quarter/eighth map to a dotted class (in particular
`"quarter"` with 1 dot to the dotted-quarter class), and every other type —
including `"whole"` with 1 dot — maps to no class. -/
theorem C8_duration_class_table :
    (NotationPass.map_duration_class (some "whole") 0 = some "so:WholeNote" ∧
      NotationPass.map_duration_class (some "half") 0 = some "so:HalfNote" ∧
      NotationPass.map_duration_class (some "quarter") 0 = some "so:QuarterNote" ∧
      NotationPass.map_duration_class (some "eighth") 0 = some "so:EighthNote" ∧
      NotationPass.map_duration_class (some "16th") 0 = some "so:SixteenthNote" ∧
      NotationPass.map_duration_class (some "32nd") 0 = some "so:ThirtySecondNote" ∧
      NotationPass.map_duration_class (some "64th") 0 = some "so:SixtyFourthNote") ∧
    (NotationPass.map_duration_class (some "half") 1 = some "so:DottedHalf" ∧
      NotationPass.map_duration_class (some "quarter") 1 = some "so:DottedQuarter" ∧
      NotationPass.map_duration_class (some "eighth") 1 = some "so:DottedEighth") ∧
    NotationPass.map_duration_class (some "whole") 1 = none ∧
    ∀ s : String, strLower (strTrim s) ≠ "half" → strLower (strTrim s) ≠ "quarter" →
      strLower (strTrim s) ≠ "eighth" → NotationPass.map_duration_class (some s) 1 = none := by
  refine ⟨by decide, by decide, by decide, ?_⟩
  intro s h1 h2 h3
  unfold NotationPass.map_duration_class
  by_cases hw : strLower (strTrim s) = "whole" <;> simp [hw, h1, h2, h3]

/-- C8 witness: the hypotheses of the general one-dot clause are satisfiable,
e.g. at the type `"whole"`. -/
theorem C8_witness :
    (strLower (strTrim "whole") ≠ "half" ∧ strLower (strTrim "whole") ≠ "quarter" ∧
      strLower (strTrim "whole") ≠ "eighth") ∧
    NotationPass.map_duration_class (some "whole") 1 = none :=
  ⟨by decide, C8_duration_class_table.2.2.2 "whole" (by decide) (by decide) (by decide)⟩

/-- Claim C6 counterexample: a pitched note whose pitch has a step name but
no octave still gets a Pitch node — `extend_with_music_notation` decides
Pitch creation on the step alone (line 514), contradicting the claim that a
missing octave suppresses the Pitch node. -/
theorem C6_counterexample_missing_octave :
    (NotationPass.PitchXml.octave ⟨some "C", none⟩ = none) ∧
    NotationPass.pitch_node_created ⟨false, some ⟨some "C", none⟩⟩ = true := by
  decide

/-- Claim C6 (amended): a Pitch node is created exactly when the note is not
a rest, has a `<pitch>` element, and that element's normalised step is one of
the letters A–G; a missing step name suppresses the Pitch node, while a
missing octave does not. -/
theorem C6_pitch_creation_amended :
    (∀ (n : NotationPass.NoteXml) (p : NotationPass.PitchXml),
      n.pitch = some p → NotationPass.stepNorm p = none →
        NotationPass.pitch_node_created n = false) ∧
    (∀ (n : NotationPass.NoteXml) (p : NotationPass.PitchXml) (st : String),
      n.pitch = some p → n.isRest = false → NotationPass.stepNorm p = some st →
        NotationPass.pitch_letters.contains st = true →
        NotationPass.pitch_node_created n = true) := by
  constructor
  · intro n p hp hs
    unfold NotationPass.pitch_node_created
    rcases n with ⟨hr, _⟩
    cases hr <;> simp_all
  · intro n p st hp hr hs hmem
    unfold NotationPass.pitch_node_created
    simp_all

/-- C6 witness: both amended clauses applied at concrete notes — a pitch with
no step yields no Pitch node, and a pitch with step `" c "` (whitespace,
lowercase) and no octave yields one. -/
theorem C6_witness :
    ((⟨false, some ⟨none, some "4"⟩⟩ : NotationPass.NoteXml).pitch = some ⟨none, some "4"⟩ ∧
      NotationPass.stepNorm ⟨none, some "4"⟩ = none ∧
      NotationPass.pitch_node_created ⟨false, some ⟨none, some "4"⟩⟩ = false) ∧
    ((⟨false, some ⟨some " c ", none⟩⟩ : NotationPass.NoteXml).pitch = some ⟨some " c ", none⟩ ∧
      NotationPass.stepNorm ⟨some " c ", none⟩ = some "C" ∧
      NotationPass.pitch_node_created ⟨false, some ⟨some " c ", none⟩⟩ = true) :=
  ⟨⟨rfl, by decide,
      C6_pitch_creation_amended.1 ⟨false, some ⟨none, some "4"⟩⟩ ⟨none, some "4"⟩ rfl (by decide)⟩,
    ⟨rfl, by decide,
      C6_pitch_creation_amended.2 ⟨false, some ⟨some " c ", none⟩⟩ ⟨some " c ", none⟩ "C" rfl rfl
        (by decide) (by decide)⟩⟩

namespace ComplexityPass

theorem foldl_min_le_init (xs : List ℚ) (a : ℚ) : xs.foldl min a ≤ a := by
  induction xs generalizing a with
  | nil => simp
  | cons x xs ih => exact le_trans (ih (min a x)) (min_le_left a x)

theorem foldl_min_le_mem {v : ℚ} (xs : List ℚ) (a : ℚ) (h : v ∈ xs) :
    xs.foldl min a ≤ v := by
  induction xs generalizing a with
  | nil => cases h
  | cons x xs ih =>
    rcases List.mem_cons.mp h with rfl | h
    · exact le_trans (foldl_min_le_init xs (min a v)) (min_le_right a v)
    · exact ih (min a x) h

theorem init_le_foldl_max (xs : List ℚ) (a : ℚ) : a ≤ xs.foldl max a := by
  induction xs generalizing a with
  | nil => simp
  | cons x xs ih => exact le_trans (le_max_left a x) (ih (max a x))

theorem mem_le_foldl_max {v : ℚ} (xs : List ℚ) (a : ℚ) (h : v ∈ xs) :
    v ≤ xs.foldl max a := by
  induction xs generalizing a with
  | nil => cases h
  | cons x xs ih =>
    rcases List.mem_cons.mp h with rfl | h
    · exact le_trans (le_max_right a v) (init_le_foldl_max xs (max a v))
    · exact ih (max a x) h

theorem safe_minmax_le {v : ℚ} {l : List ℚ} (h : v ∈ l) :
    (safe_minmax l).1 ≤ v ∧ v ≤ (safe_minmax l).2 := by
  cases l with
  | nil => cases h
  | cons x xs =>
    rcases List.mem_cons.mp h with rfl | h
    · exact ⟨foldl_min_le_init xs v, init_le_foldl_max xs v⟩
    · exact ⟨foldl_min_le_mem xs x h, mem_le_foldl_max xs x h⟩

theorem safe_normalize_bounds {v vmin vmax : ℚ} (h1 : vmin ≤ v) (h2 : v ≤ vmax) :
    0 ≤ safe_normalize v vmin vmax ∧ safe_normalize v vmin vmax ≤ 1 := by
  unfold safe_normalize
  split
  · simp
  · rename_i h
    push_neg at h
    refine ⟨div_nonneg (by linarith) (by linarith), ?_⟩
    rw [div_le_one (by linarith)]
    linarith

theorem normWeights_nonneg (w : Weights) :
    0 ≤ (normWeights w).noteCount ∧ 0 ≤ (normWeights w).measureAccidentalCount ∧
    0 ≤ (normWeights w).subdivisionIndex ∧ 0 ≤ (normWeights w).minNoteValue ∧
    0 ≤ (normWeights w).dynamicCount ∧ 0 ≤ (normWeights w).articulationCount := by
  by_cases h : wsum w ≤ 0
  · simp [normWeights, h]
  · push_neg at h
    simp only [normWeights, if_neg (not_le.mpr h)]
    refine ⟨?_, ?_, ?_, ?_, ?_, ?_⟩ <;>
      exact div_nonneg (le_max_right _ _) (le_of_lt h)

theorem sumNormWeights_eq_one (w : Weights) : sumNormWeights w = 1 := by
  by_cases h : wsum w ≤ 0
  · simp [sumNormWeights, normWeights, h]
    norm_num
  · push_neg at h
    have hne : wsum w ≠ 0 := ne_of_gt h
    simp [sumNormWeights, normWeights, not_le.mpr h, div_add_div_same]
    rw [div_eq_one_iff_eq hne]
    simp [wsum]

theorem round_mono_q {x y : ℚ} (h : x ≤ y) : round x ≤ round y := by
  rw [round_eq, round_eq]
  exact Int.floor_le_floor (by linarith)

theorem round4_bounds {x : ℚ} (h0 : 0 ≤ x) (h1 : x ≤ 1) :
    0 ≤ round4 x ∧ round4 x ≤ 1 := by
  unfold round4
  have hlo : (0 : ℤ) ≤ round (x * 10000) := by
    have h' := round_mono_q (show (0 : ℚ) ≤ x * 10000 by nlinarith)
    simpa using h'
  have hhi : round (x * 10000) ≤ (10000 : ℤ) := by
    have h' := round_mono_q (show x * 10000 ≤ ((10000 : ℤ) : ℚ) by push_cast; nlinarith)
    simpa [round_intCast] using h'
  constructor
  · exact div_nonneg (by exact_mod_cast hlo) (by norm_num)
  · rw [div_le_one (by norm_num)]
    exact_mod_cast hhi

end ComplexityPass


/-- Claim C9: min-max normalization returns 0 whenever the maximum does not
exceed the minimum instead of failing; consequently a work with exactly one
measure gets 0 for every normalized metric and an `LCIvalue` of 0. -/
theorem C9_degenerate_normalization :
    (∀ v vmin vmax : ℚ, vmax ≤ vmin → ComplexityPass.safe_normalize v vmin vmax = 0) ∧
    (∀ (w : ComplexityPass.Weights) (m : ComplexityPass.RawMetrics),
      ComplexityPass.computeLCI w [m] = [0]) := by
  constructor
  · intro v vmin vmax h
    simp [ComplexityPass.safe_normalize, h]
  · intro w m
    simp [ComplexityPass.computeLCI, ComplexityPass.safe_minmax,
      ComplexityPass.safe_normalize, ComplexityPass.round4]

/-- C9 witness: the degenerate branch applied at `v = 5, min = 3, max = 2`,
and the single-measure clause at a concrete metric record. -/
theorem C9_witness :
    ((2 : ℚ) ≤ 3 ∧ ComplexityPass.safe_normalize 5 3 2 = 0) ∧
    ComplexityPass.computeLCI ComplexityPass.LOCAL_COMPLEXITY_WEIGHTS
      [⟨12, 3, 8, 16, 1, 2⟩] = [0] :=
  ⟨⟨by norm_num, C9_degenerate_normalization.1 5 3 2 (by norm_num)⟩,
    C9_degenerate_normalization.2 ComplexityPass.LOCAL_COMPLEXITY_WEIGHTS ⟨12, 3, 8, 16, 1, 2⟩⟩

/-- Claim C5: every written `LCIvalue` lies in `[0, 1]`, the six normalised
weights always sum to exactly 1 (hence within `1e-9`), and when all
configured weights are non-positive the equal `1/6` split is used. -/
theorem C5_lci_bounds :
    (∀ w : ComplexityPass.Weights, ComplexityPass.sumNormWeights w = 1) ∧
    (∀ w : ComplexityPass.Weights, ComplexityPass.wsum w ≤ 0 →
      ComplexityPass.normWeights w = ⟨1/6, 1/6, 1/6, 1/6, 1/6, 1/6⟩) ∧
    (∀ (w : ComplexityPass.Weights) (ms : List ComplexityPass.RawMetrics) (v : ℚ),
      v ∈ ComplexityPass.computeLCI w ms → 0 ≤ v ∧ v ≤ 1) := by
  refine ⟨ComplexityPass.sumNormWeights_eq_one, ?_, ?_⟩
  · intro w h
    simp [ComplexityPass.normWeights, h]
  · intro w ms v hv
    unfold ComplexityPass.computeLCI at hv
    simp only [List.mem_map] at hv
    obtain ⟨m, hm, rfl⟩ := hv
    have m1 : m.noteCount ∈ ms.map (fun m => m.noteCount) := List.mem_map_of_mem _ hm
    have m2 : m.measureAccidentalCount ∈ ms.map (fun m => m.measureAccidentalCount) :=
      List.mem_map_of_mem _ hm
    have m3 : m.subdivisionIndex ∈ ms.map (fun m => m.subdivisionIndex) :=
      List.mem_map_of_mem _ hm
    have m4 : m.minNoteValue ∈ ms.map (fun m => m.minNoteValue) := List.mem_map_of_mem _ hm
    have m5 : m.dynamicCount ∈ ms.map (fun m => m.dynamicCount) := List.mem_map_of_mem _ hm
    have m6 : m.articulationCount ∈ ms.map (fun m => m.articulationCount) :=
      List.mem_map_of_mem _ hm
    have b1 := ComplexityPass.safe_normalize_bounds (ComplexityPass.safe_minmax_le m1).1
      (ComplexityPass.safe_minmax_le m1).2
    have b2 := ComplexityPass.safe_normalize_bounds (ComplexityPass.safe_minmax_le m2).1
      (ComplexityPass.safe_minmax_le m2).2
    have b3 := ComplexityPass.safe_normalize_bounds (ComplexityPass.safe_minmax_le m3).1
      (ComplexityPass.safe_minmax_le m3).2
    have b4 := ComplexityPass.safe_normalize_bounds (ComplexityPass.safe_minmax_le m4).1
      (ComplexityPass.safe_minmax_le m4).2
    have b5 := ComplexityPass.safe_normalize_bounds (ComplexityPass.safe_minmax_le m5).1
      (ComplexityPass.safe_minmax_le m5).2
    have b6 := ComplexityPass.safe_normalize_bounds (ComplexityPass.safe_minmax_le m6).1
      (ComplexityPass.safe_minmax_le m6).2
    obtain ⟨hw1, hw2, hw3, hw4, hw5, hw6⟩ := ComplexityPass.normWeights_nonneg w
    have hsum : (ComplexityPass.normWeights w).noteCount +
        (ComplexityPass.normWeights w).measureAccidentalCount +
        (ComplexityPass.normWeights w).subdivisionIndex +
        (ComplexityPass.normWeights w).minNoteValue +
        (ComplexityPass.normWeights w).dynamicCount +
        (ComplexityPass.normWeights w).articulationCount = 1 :=
      ComplexityPass.sumNormWeights_eq_one w
    apply ComplexityPass.round4_bounds
    · have p1 := mul_nonneg hw1 b1.1
      have p2 := mul_nonneg hw2 b2.1
      have p3 := mul_nonneg hw3 b3.1
      have p4 := mul_nonneg hw4 b4.1
      have p5 := mul_nonneg hw5 b5.1
      have p6 := mul_nonneg hw6 b6.1
      linarith
    · have p1 := mul_le_of_le_one_right hw1 b1.2
      have p2 := mul_le_of_le_one_right hw2 b2.2
      have p3 := mul_le_of_le_one_right hw3 b3.2
      have p4 := mul_le_of_le_one_right hw4 b4.2
      have p5 := mul_le_of_le_one_right hw5 b5.2
      have p6 := mul_le_of_le_one_right hw6 b6.2
      linarith

/-- C5 witness: the membership hypothesis of the bounds clause is
satisfiable: the all-zero single-measure population produces the LCIvalue 0,
which the theorem then bounds. -/
theorem C5_witness :
    ((0 : ℚ) ∈ ComplexityPass.computeLCI ComplexityPass.LOCAL_COMPLEXITY_WEIGHTS
      [⟨0, 0, 0, 0, 0, 0⟩]) ∧ (0 ≤ (0 : ℚ) ∧ (0 : ℚ) ≤ 1) := by
  have hmem : (0 : ℚ) ∈ ComplexityPass.computeLCI ComplexityPass.LOCAL_COMPLEXITY_WEIGHTS
      [⟨0, 0, 0, 0, 0, 0⟩] := by
    simp [ComplexityPass.computeLCI, ComplexityPass.safe_minmax,
      ComplexityPass.safe_normalize, ComplexityPass.round4]
  exact ⟨hmem, C5_lci_bounds.2.2 ComplexityPass.LOCAL_COMPLEXITY_WEIGHTS
    [⟨0, 0, 0, 0, 0, 0⟩] 0 hmem⟩

theorem startsFrom_mem {x : Nat} :
    ∀ (ms : List Measure) (i : Nat),
      x ∈ startsFrom i ms ↔
        ∃ j m, ms[j]? = some m ∧ m.number = some "1" ∧ x = i + j := by
  intro ms
  induction ms with
  | nil => intro i; simp [startsFrom]
  | cons m tl ih =>
    intro i
    simp only [startsFrom, List.mem_append]
    constructor
    · rintro (h | h)
      · by_cases hm : m.number = some "1"
        · simp only [hm, if_pos, List.mem_singleton] at h
          exact ⟨0, m, by simp, hm, by omega⟩
        · simp [hm] at h
      · obtain ⟨j, m', hj, hm', hx⟩ := (ih (i + 1)).mp h
        exact ⟨j + 1, m', by simpa using hj, hm', by omega⟩
    · rintro ⟨j, m', hj, hm', rfl⟩
      cases j with
      | zero =>
        left
        rw [List.getElem?_cons_zero] at hj
        cases hj
        simp [hm']
      | succ j =>
        right
        rw [List.getElem?_cons_succ] at hj
        exact (ih (i + 1)).mpr ⟨j, m', hj, hm', by omega⟩

theorem startsFrom_lb {x : Nat} {ms : List Measure} {i : Nat}
    (h : x ∈ startsFrom i ms) : i ≤ x := by
  obtain ⟨j, m, _, _, rfl⟩ := (startsFrom_mem ms i).mp h
  omega

theorem startsFrom_ub {x : Nat} {ms : List Measure} {i : Nat}
    (h : x ∈ startsFrom i ms) : x < i + ms.length := by
  obtain ⟨j, m, hj, _, rfl⟩ := (startsFrom_mem ms i).mp h
  have := (List.getElem?_eq_some.mp hj).1
  omega

theorem startsFrom_sorted :
    ∀ (ms : List Measure) (i : Nat),
      List.Pairwise (fun a b => Nat.ble a b = true) (startsFrom i ms) := by
  intro ms
  induction ms with
  | nil => intro i; simp [startsFrom]
  | cons m tl ih =>
    intro i
    by_cases hm : m.number = some "1"
    · simp only [startsFrom, hm, if_pos, List.singleton_append]
      refine List.Pairwise.cons ?_ (ih (i + 1))
      intro b hb
      have := startsFrom_lb hb
      simp only [Nat.ble_eq]
      omega
    · simpa [startsFrom, hm] using ih (i + 1)

theorem detect_movements_eq (ms : List Measure) :
    detect_movements ms =
      if startsFrom 0 ms = [] then [⟨1, 0, ms.length⟩]
      else buildSegments 1 (startsFrom 0 ms) ms.length := by
  simp only [detect_movements]
  rw [List.mergeSort_of_sorted (startsFrom_sorted ms 0)]

theorem buildSegments_length : ∀ (ss : List Nat) (k n : Nat),
    (buildSegments k ss n).length = ss.length := by
  intro ss
  induction ss with
  | nil => intro k n; rfl
  | cons s rest ih => intro k n; simp [buildSegments, ih]

theorem buildSegments_map_start : ∀ (ss : List Nat) (k n : Nat),
    (buildSegments k ss n).map (fun seg => seg.start) = ss := by
  intro ss
  induction ss with
  | nil => intro k n; rfl
  | cons s rest ih => intro k n; simp [buildSegments, ih]

theorem buildSegments_map_mv : ∀ (ss : List Nat) (k n : Nat),
    (buildSegments k ss n).map (fun seg => seg.movementIndex) =
      List.range' k ss.length := by
  intro ss
  induction ss with
  | nil => intro k n; rfl
  | cons s rest ih =>
    intro k n
    simp [buildSegments, ih, List.range'_succ]

theorem buildSegments_chain : ∀ (ss : List Nat) (k n : Nat),
    List.Chain' (fun a b => a.stop = b.start) (buildSegments k ss n) := by
  intro ss
  induction ss with
  | nil => intro k n; simp [buildSegments]
  | cons s rest ih =>
    intro k n
    cases rest with
    | nil => simp [buildSegments]
    | cons s' rest' =>
      have h := ih (k + 1) n
      rw [show buildSegments k (s :: s' :: rest') n =
        ⟨k, s, s'⟩ :: buildSegments (k + 1) (s' :: rest') n from rfl]
      rw [show buildSegments (k + 1) (s' :: rest') n =
        ⟨k + 1, s', rest'.headD n⟩ :: buildSegments (k + 2) rest' n from rfl] at h ⊢
      exact List.chain'_cons.mpr ⟨rfl, h⟩

theorem buildSegments_last_stop : ∀ (ss : List Nat) (k n : Nat), ss ≠ [] →
    ((buildSegments k ss n).getLast?).map (fun seg => seg.stop) = some n := by
  intro ss
  induction ss with
  | nil => intro k n h; cases h rfl
  | cons s rest ih =>
    intro k n _
    cases rest with
    | nil => rfl
    | cons s' rest' =>
      rw [show buildSegments k (s :: s' :: rest') n =
        ⟨k, s, s'⟩ :: buildSegments (k + 1) (s' :: rest') n from rfl]
      rw [show buildSegments (k + 1) (s' :: rest') n =
        ⟨k + 1, s', rest'.headD n⟩ :: buildSegments (k + 2) rest' n from rfl]
      rw [List.getLast?_cons_cons]
      rw [show (⟨k + 1, s', rest'.headD n⟩ : Segment) :: buildSegments (k + 2) rest' n =
        buildSegments (k + 1) (s' :: rest') n from rfl]
      exact ih (k + 1) n (by simp)

theorem mem_buildSegments_start : ∀ (ss : List Nat) (k n : Nat) (seg : Segment),
    seg ∈ buildSegments k ss n → seg.start ∈ ss := by
  intro ss
  induction ss with
  | nil => intro k n seg h; cases h
  | cons s rest ih =>
    intro k n seg h
    rcases List.mem_cons.mp h with rfl | h
    · simp
    · exact List.mem_cons_of_mem _ (ih (k + 1) n seg h)

theorem buildSegments_tile : ∀ (ss : List Nat) (s k n : Nat),
    List.Pairwise (fun a b => Nat.ble a b = true) (s :: ss) →
    (∀ x ∈ s :: ss, x ≤ n) →
    ((buildSegments k (s :: ss) n).flatMap fun seg =>
      List.range' seg.start (seg.stop - seg.start)) = List.range' s (n - s) := by
  intro ss
  induction ss with
  | nil => intro s k n _ _; simp [buildSegments]
  | cons s' rest ih =>
    intro s k n hs hb
    have hss' : s ≤ s' := by
      have h1 := (List.pairwise_cons.mp hs).1 s' (by simp)
      simpa [Nat.ble_eq] using h1
    have hs'n : s' ≤ n := hb s' (by simp)
    rw [show buildSegments k (s :: s' :: rest) n =
      ⟨k, s, s'⟩ :: buildSegments (k + 1) (s' :: rest) n from rfl]
    rw [List.flatMap_cons]
    rw [ih s' (k + 1) n (List.pairwise_cons.mp hs).2
      (fun x hx => hb x (List.mem_cons_of_mem _ hx))]
    have happ := List.range'_append s (s' - s) (n - s') 1
    rw [show s + 1 * (s' - s) = s' by omega] at happ
    rw [show (⟨k, s, s'⟩ : Segment).stop - (⟨k, s, s'⟩ : Segment).start = s' - s from rfl,
      show (⟨k, s, s'⟩ : Segment).start = s from rfl]
    rw [happ, show n - s' + (s' - s) = n - s by omega]

theorem visitedRaw_snd (ms : List Measure)
    (h : startsFrom 0 ms = [] ∨ (startsFrom 0 ms).head? = some 0) :
    (visitedRaw ms).map (fun p => p.2) = List.range' 0 ms.length := by
  unfold visitedRaw
  rw [detect_movements_eq]
  rcases h with h | h
  · rw [if_pos h]
    simp [List.map_flatMap, List.map_map, Function.comp]
  · cases hs : startsFrom 0 ms with
    | nil => rw [hs] at h; cases h
    | cons a tl =>
      rw [hs] at h
      have ha : a = 0 := by simpa using h
      subst ha
      rw [if_neg (by simp)]
      rw [List.map_flatMap]
      have hinner : ∀ seg : Segment,
          ((List.range' seg.start (seg.stop - seg.start)).map
            (fun i => (seg.movementIndex, i))).map (fun p => p.2) =
          List.range' seg.start (seg.stop - seg.start) := by
        intro seg
        simp [List.map_map, Function.comp]
      calc ((buildSegments 1 (0 :: tl) ms.length).flatMap fun seg =>
              ((List.range' seg.start (seg.stop - seg.start)).map
                (fun i => (seg.movementIndex, i))).map (fun p => p.2))
          = (buildSegments 1 (0 :: tl) ms.length).flatMap fun seg =>
              List.range' seg.start (seg.stop - seg.start) := by
            exact List.flatMap_congr (fun seg _ => hinner seg)
        _ = List.range' 0 (ms.length - 0) := by
            apply buildSegments_tile
            · rw [← hs]; exact startsFrom_sorted ms 0
            · intro x hx
              rw [← hs] at hx
              have := startsFrom_ub hx
              omega
        _ = List.range' 0 ms.length := by simp

theorem assignMeasure_map_ordinal (mv i : Nat) :
    ∀ (l : List MChild) (c : Nat),
      (NotationPass.assignMeasure c mv i l).map (fun e => e.ordinal) =
        List.range' c l.length := by
  intro l
  induction l with
  | nil => intro c; rfl
  | cons x xs ih =>
    intro c
    simp [NotationPass.assignMeasure, ih, List.range'_succ]

theorem assignMeasure_mem {e : NotationPass.NEvent} (c mv i : Nat) :
    ∀ l : List MChild, e ∈ NotationPass.assignMeasure c mv i l → e.measurePos = i := by
  intro l
  induction l generalizing c with
  | nil => intro h; cases h
  | cons x xs ih =>
    intro h
    rcases List.mem_cons.mp h with rfl | h
    · rfl
    · exact ih (c + 1) h

theorem assignAll_length (ms : List Measure) :
    ∀ (l : List (Nat × Nat)) (c : Nat),
      (NotationPass.assignAll c ms l).length =
        (l.map fun p =>
          (NotationPass.measureNotes (ms.getD p.2 emptyMeasure)).length).sum := by
  intro l
  induction l with
  | nil => intro c; rfl
  | cons p rest ih =>
    intro c
    cases p with
    | mk mv i =>
      simp only [NotationPass.assignAll, List.length_append, List.map_cons, List.sum_cons, ih]
      congr 1
      induction NotationPass.measureNotes (ms.getD i emptyMeasure) generalizing c with
      | nil => rfl
      | cons x xs ih2 => simp [NotationPass.assignMeasure, ih2]

theorem assignAll_map_ordinal (ms : List Measure) :
    ∀ (l : List (Nat × Nat)) (c : Nat),
      (NotationPass.assignAll c ms l).map (fun e => e.ordinal) =
        List.range' c (NotationPass.assignAll c ms l).length := by
  intro l
  induction l with
  | nil => intro c; rfl
  | cons p rest ih =>
    intro c
    cases p with
    | mk mv i =>
      rw [show NotationPass.assignAll c ms ((mv, i) :: rest) =
        NotationPass.assignMeasure c mv i
          (NotationPass.measureNotes (ms.getD i emptyMeasure)) ++
          NotationPass.assignAll
            (c + (NotationPass.measureNotes (ms.getD i emptyMeasure)).length) ms rest
        from rfl]
      set notes := NotationPass.measureNotes (ms.getD i emptyMeasure)
      rw [List.map_append, assignMeasure_map_ordinal, ih,
        List.length_append]
      have hlen : (NotationPass.assignMeasure c mv i notes).length = notes.length := by
        have := assignMeasure_map_ordinal mv i notes c
        have h2 := congrArg List.length this
        simpa using h2
      rw [hlen]
      have happ := List.range'_append c notes.length
        (NotationPass.assignAll (c + notes.length) ms rest).length 1
      rw [show c + 1 * notes.length = c + notes.length by omega] at happ
      rw [happ]
      congr 1
      omega

theorem assignAll_measurePos {e : NotationPass.NEvent} (ms : List Measure) :
    ∀ (l : List (Nat × Nat)) (c : Nat),
      e ∈ NotationPass.assignAll c ms l → e.measurePos ∈ l.map (fun p => p.2) := by
  intro l
  induction l with
  | nil => intro c h; cases h
  | cons p rest ih =>
    intro c h
    cases p with
    | mk mv i =>
      rcases List.mem_append.mp h with h | h
      · simp [assignMeasure_mem c mv i _ h]
      · exact List.mem_cons_of_mem _ (ih _ h)

theorem sum_range'_getD (f : Measure → Nat) :
    ∀ ms : List Measure,
      ((List.range' 0 ms.length).map fun i => f (ms.getD i emptyMeasure)).sum =
        (ms.map f).sum := by
  have aux : ∀ (tl : List Measure) (m : Measure) (n s : Nat),
      ((List.range' (s + 1) n).map fun i => f ((m :: tl).getD i emptyMeasure)).sum =
        ((List.range' s n).map fun i => f (tl.getD i emptyMeasure)).sum := by
    intro tl m n
    induction n with
    | zero => intro s; rfl
    | succ n ih =>
      intro s
      rw [List.range'_succ, List.range'_succ]
      simp only [List.map_cons, List.sum_cons]
      rw [List.getD_cons_succ]
      have := ih (s + 1)
      rw [this]
  intro ms
  induction ms with
  | nil => rfl
  | cons m tl ih =>
    rw [show (m :: tl).length = tl.length + 1 from rfl, List.range'_succ]
    simp only [List.map_cons, List.sum_cons, List.getD_cons_zero]
    rw [aux tl m tl.length 0, ih]

/-- Claim C7: `detect_movements` opens a segment at exactly the positions
labelled the literal `"1"` (each running to the next such position or to the
end, with movement indices 1..N), and a sequence with no `"1"` label — such
as `["A","B","C"]` — yields the single movement `⟨1, 0, length⟩`. -/
theorem C7_detect_movements_spec (ms : List Measure) :
    (∀ i, i ∈ startsFrom 0 ms ↔ ∃ m, ms[i]? = some m ∧ m.number = some "1") ∧
    (startsFrom 0 ms = [] → detect_movements ms = [⟨1, 0, ms.length⟩]) ∧
    (startsFrom 0 ms ≠ [] →
      (detect_movements ms).map (fun seg => seg.start) = startsFrom 0 ms ∧
      (detect_movements ms).map (fun seg => seg.movementIndex) =
        List.range' 1 (startsFrom 0 ms).length ∧
      List.Chain' (fun a b => a.stop = b.start) (detect_movements ms) ∧
      ((detect_movements ms).getLast?).map (fun seg => seg.stop) = some ms.length) ∧
    detect_movements [⟨some "A", []⟩, ⟨some "B", []⟩, ⟨some "C", []⟩] = [⟨1, 0, 3⟩] := by
  refine ⟨?_, ?_, ?_, ?_⟩
  · intro i
    rw [startsFrom_mem ms 0]
    constructor
    · rintro ⟨j, m, hj, hm, rfl⟩
      exact ⟨m, by simpa using hj, hm⟩
    · rintro ⟨m, hm, h1⟩
      exact ⟨i, m, hm, h1, by omega⟩
  · intro h
    rw [detect_movements_eq, if_pos h]
  · intro h
    rw [detect_movements_eq, if_neg h]
    exact ⟨buildSegments_map_start _ 1 ms.length,
      buildSegments_map_mv _ 1 ms.length,
      buildSegments_chain _ 1 ms.length,
      buildSegments_last_stop _ 1 ms.length h⟩
  · rw [detect_movements_eq]
    decide

/-- C7 witness: the non-empty-starts clause applied to the concrete sequence
`["1", "A"]`, whose only `"1"` label is at position 0. -/
theorem C7_witness :
    (startsFrom 0 [⟨some "1", []⟩, ⟨some "A", []⟩] ≠ []) ∧
    (detect_movements [⟨some "1", []⟩, ⟨some "A", []⟩]).map (fun seg => seg.start) =
      startsFrom 0 [⟨some "1", []⟩, ⟨some "A", []⟩] ∧
    ((detect_movements [⟨some "1", []⟩, ⟨some "A", []⟩]).getLast?).map
      (fun seg => seg.stop) = some 2 :=
  ⟨by decide,
    ((C7_detect_movements_spec [⟨some "1", []⟩, ⟨some "A", []⟩]).2.2.1 (by decide)).1,
    ((C7_detect_movements_spec [⟨some "1", []⟩, ⟨some "A", []⟩]).2.2.1 (by decide)).2.2.2⟩

/-- Claim C2 counterexample: with measures labelled `["0", "1"]`, one note
each, the work has 2 note elements in total but the notation builder assigns
only the ordinal set `{1}` — the leading pickup measure is outside every
detected movement, so the ordinals are not `{1, …, N}` for the whole work. -/
theorem C2_counterexample_pickup_measure :
    ¬ ((NotationPass.notationEvents
        [⟨some "0", [MChild.note none false]⟩, ⟨some "1", [MChild.note none false]⟩]).map
          (fun e => e.ordinal) =
      List.range' 1 (NotationPass.totalNotes
        [⟨some "0", [MChild.note none false]⟩, ⟨some "1", [MChild.note none false]⟩])) := by
  have hd : detect_movements
      [⟨some "0", [MChild.note none false]⟩, ⟨some "1", [MChild.note none false]⟩] =
      [⟨1, 1, 2⟩] := by
    rw [detect_movements_eq]
    decide
  simp only [NotationPass.notationEvents, visitedRaw, hd]
  decide

/-- Claim C2 (amended): the notation builder's event ordinals are exactly
`{1, …, N′}` in document order — consecutive from 1, no gaps, no repeats,
one counter across all movements — where `N′` is the number of note-or-rest
elements in the measures covered by the detected movement segments; `N′`
equals the work's total note count whenever no measure precedes the first
`"1"`-labelled measure (in particular when no measure is labelled `"1"`). -/
theorem C2_event_ordinals_amended (ms : List Measure) :
    (NotationPass.notationEvents ms).map (fun e => e.ordinal) =
      List.range' 1 (NotationPass.notationEvents ms).length ∧
    ((startsFrom 0 ms = [] ∨ (startsFrom 0 ms).head? = some 0) →
      (NotationPass.notationEvents ms).length = NotationPass.totalNotes ms) := by
  constructor
  · exact assignAll_map_ordinal ms (visitedRaw ms) 1
  · intro h
    rw [NotationPass.notationEvents, assignAll_length ms (visitedRaw ms) 1]
    have hmaps : (visitedRaw ms).map
        (fun p => (NotationPass.measureNotes (ms.getD p.2 emptyMeasure)).length) =
        ((visitedRaw ms).map (fun p => p.2)).map
          (fun i => (NotationPass.measureNotes (ms.getD i emptyMeasure)).length) := by
      rw [List.map_map]
      rfl
    rw [hmaps, visitedRaw_snd ms h,
      sum_range'_getD (fun m => (NotationPass.measureNotes m).length) ms]
    rfl

/-- C2 witness: the coverage hypothesis of the amended claim is satisfiable,
e.g. by a work with no `"1"` label at all: two notes, ordinals `[1, 2]`,
`N′ = N = 2`. -/
theorem C2_witness :
    (startsFrom 0 [⟨some "A", [MChild.note none false, MChild.note none false]⟩] = []) ∧
    (NotationPass.notationEvents
      [⟨some "A", [MChild.note none false, MChild.note none false]⟩]).length =
      NotationPass.totalNotes
        [⟨some "A", [MChild.note none false, MChild.note none false]⟩] :=
  ⟨by decide,
    (C2_event_ordinals_amended
      [⟨some "A", [MChild.note none false, MChild.note none false]⟩]).2
      (Or.inl (by decide))⟩

/-- Claim C10: when the first `"1"`-labelled measure sits at a position
`k > 0`, the positions `0, …, k-1` lie in no segment returned by the Movement
Segmenter, are visited by no pass, and their notes receive no event
ordinals. -/
theorem C10_uncovered_leading_measures (ms : List Measure) (k : Nat)
    (hk : (startsFrom 0 ms).head? = some k) (hpos : 0 < k) :
    ∀ j, j < k →
      (∀ seg ∈ detect_movements ms, ¬ (seg.start ≤ j ∧ j < seg.stop)) ∧
      j ∉ (visitedRaw ms).map (fun p => p.2) ∧
      (∀ e ∈ NotationPass.notationEvents ms, e.measurePos ≠ j) := by
  intro j hj
  have hkprop : startsFrom 0 ms ≠ [] ∧ ∀ x ∈ startsFrom 0 ms, k ≤ x := by
    cases hs : startsFrom 0 ms with
    | nil => rw [hs] at hk; cases hk
    | cons a tl =>
      rw [hs] at hk
      have ha : a = k := by simpa using hk
      refine ⟨by simp, ?_⟩
      intro x hx
      rcases List.mem_cons.mp hx with rfl | hx
      · omega
      · have hp := (List.pairwise_cons.mp (hs ▸ startsFrom_sorted ms 0)).1 x hx
        rw [← ha]
        simpa [Nat.ble_eq] using hp
  obtain ⟨hne, hge⟩ := hkprop
  have hseg : ∀ seg ∈ detect_movements ms, ¬ (seg.start ≤ j ∧ j < seg.stop) := by
    intro seg hmem hcontra
    rw [detect_movements_eq, if_neg hne] at hmem
    have := hge seg.start (mem_buildSegments_start _ 1 ms.length seg hmem)
    omega
  refine ⟨hseg, ?_, ?_⟩
  · intro hmem
    rw [List.mem_map] at hmem
    obtain ⟨p, hp, hpj⟩ := hmem
    unfold visitedRaw at hp
    rw [List.mem_flatMap] at hp
    obtain ⟨seg, hseg', hp2⟩ := hp
    rw [List.mem_map] at hp2
    obtain ⟨i, hi, rfl⟩ := hp2
    have := (List.mem_range'_1.mp hi).1
    exact hseg seg hseg' ⟨by omega, by
      have := (List.mem_range'_1.mp hi).2
      omega⟩
  · intro e he heq
    have hmem := assignAll_measurePos ms (visitedRaw ms) 1 he
    rw [heq] at hmem
    have : j ∉ (visitedRaw ms).map (fun p => p.2) := by
      intro hmem'
      rw [List.mem_map] at hmem'
      obtain ⟨p, hp, hpj⟩ := hmem'
      unfold visitedRaw at hp
      rw [List.mem_flatMap] at hp
      obtain ⟨seg, hseg', hp2⟩ := hp
      rw [List.mem_map] at hp2
      obtain ⟨i, hi, rfl⟩ := hp2
      have h1 := (List.mem_range'_1.mp hi).1
      have h2 := (List.mem_range'_1.mp hi).2
      exact hseg seg hseg' ⟨by omega, by omega⟩
    exact this hmem

/-- C10 witness: the hypotheses are satisfiable at the concrete sequence with
labels `["0", "1"]`: the first `"1"` is at position 1 > 0, and position 0 is
uncovered. -/
theorem C10_witness :
    ((startsFrom 0 [⟨some "0", [MChild.note none false]⟩,
        ⟨some "1", [MChild.note none false]⟩]).head? = some 1) ∧
    (∀ seg ∈ detect_movements [⟨some "0", [MChild.note none false]⟩,
        ⟨some "1", [MChild.note none false]⟩], ¬ (seg.start ≤ 0 ∧ 0 < seg.stop)) ∧
    (∀ e ∈ NotationPass.notationEvents [⟨some "0", [MChild.note none false]⟩,
        ⟨some "1", [MChild.note none false]⟩], e.measurePos ≠ 0) := by
  have h := C10_uncovered_leading_measures
    [⟨some "0", [MChild.note none false]⟩, ⟨some "1", [MChild.note none false]⟩] 1
    (by decide) (by decide) 0 (by decide)
  exact ⟨by decide, h.1, h.2.2⟩

namespace ExpressionPass

theorem firstNoteIdx_withIdx (s : Int) :
    ∀ (ch : List MChild) (t k : Nat),
      firstNoteIdx s (withIdx t ch) = some k ↔
        ∃ d, k = t + d ∧
          (∃ stext r, ch[d]? = some (MChild.note stext r) ∧ parse_staff_index stext = s) ∧
          (∀ j stext r, j < d → ch[j]? = some (MChild.note stext r) →
            parse_staff_index stext ≠ s) := by
  intro ch
  induction ch with
  | nil =>
    intro t k
    simp [withIdx, firstNoteIdx]
  | cons c rest ih =>
    intro t k
    cases c with
    | note stext r =>
      rw [show firstNoteIdx s (withIdx t (MChild.note stext r :: rest)) =
        (if parse_staff_index stext = s then some t
          else firstNoteIdx s (withIdx (t + 1) rest)) from rfl]
      by_cases hps : parse_staff_index stext = s
      · rw [if_pos hps]
        constructor
        · intro h
          have hk : k = t := by
            have := Option.some.inj h
            omega
          subst hk
          exact ⟨0, by omega, ⟨stext, r, by simp, hps⟩,
            fun j _ _ hj _ => absurd hj (by omega)⟩
        · rintro ⟨d, rfl, hex, hnone⟩
          cases d with
          | zero => simp
          | succ d =>
            exact absurd hps (hnone 0 stext r (by omega) (by simp))
      · rw [if_neg hps]
        rw [ih (t + 1) k]
        constructor
        · rintro ⟨d, rfl, hex, hnone⟩
          refine ⟨d + 1, by omega, by simpa using hex, ?_⟩
          intro j stext' r' hj hget
          cases j with
          | zero =>
            rw [List.getElem?_cons_zero] at hget
            cases hget
            exact hps
          | succ j =>
            rw [List.getElem?_cons_succ] at hget
            exact hnone j stext' r' (by omega) hget
        · rintro ⟨d, rfl, hex, hnone⟩
          cases d with
          | zero =>
            obtain ⟨stext', r', hget, hps'⟩ := hex
            rw [List.getElem?_cons_zero] at hget
            cases hget
            exact absurd hps' hps
          | succ d =>
            refine ⟨d, by omega, by simpa using hex, ?_⟩
            intro j stext' r' hj hget
            exact hnone (j + 1) stext' r' (by omega) (by simpa using hget)
    | direction stext tags =>
      rw [show firstNoteIdx s (withIdx t (MChild.direction stext tags :: rest)) =
        firstNoteIdx s (withIdx (t + 1) rest) from rfl]
      rw [ih (t + 1) k]
      constructor
      · rintro ⟨d, rfl, hex, hnone⟩
        refine ⟨d + 1, by omega, by simpa using hex, ?_⟩
        intro j stext' r' hj hget
        cases j with
        | zero => rw [List.getElem?_cons_zero] at hget; cases hget
        | succ j =>
          rw [List.getElem?_cons_succ] at hget
          exact hnone j stext' r' (by omega) hget
      · rintro ⟨d, rfl, hex, hnone⟩
        cases d with
        | zero =>
          obtain ⟨stext', r', hget, _⟩ := hex
          rw [List.getElem?_cons_zero] at hget
          cases hget
        | succ d =>
          refine ⟨d, by omega, by simpa using hex, ?_⟩
          intro j stext' r' hj hget
          exact hnone (j + 1) stext' r' (by omega) (by simpa using hget)
    | other =>
      rw [show firstNoteIdx s (withIdx t (MChild.other :: rest)) =
        firstNoteIdx s (withIdx (t + 1) rest) from rfl]
      rw [ih (t + 1) k]
      constructor
      · rintro ⟨d, rfl, hex, hnone⟩
        refine ⟨d + 1, by omega, by simpa using hex, ?_⟩
        intro j stext' r' hj hget
        cases j with
        | zero => rw [List.getElem?_cons_zero] at hget; cases hget
        | succ j =>
          rw [List.getElem?_cons_succ] at hget
          exact hnone j stext' r' (by omega) hget
      · rintro ⟨d, rfl, hex, hnone⟩
        cases d with
        | zero =>
          obtain ⟨stext', r', hget, _⟩ := hex
          rw [List.getElem?_cons_zero] at hget
          cases hget
        | succ d =>
          refine ⟨d, by omega, by simpa using hex, ?_⟩
          intro j stext' r' hj hget
          exact hnone (j + 1) stext' r' (by omega) (by simpa using hget)

end ExpressionPass

namespace ExpressionPass

theorem dirBound_withIdx :
    ∀ (ch : List MChild) (t : Nat) (a : Attach),
      a ∈ dirBound (withIdx t ch) ↔
        ∃ d, a.dirPos = t + d ∧
          (∃ stext tags, ch[d]? = some (MChild.direction stext tags) ∧
            a.staff = parse_staff_index stext ∧
            a.token ∈ parse_direction_dynamics tags) ∧
          firstNoteIdx a.staff (withIdx (t + d + 1) (ch.drop (d + 1))) = some a.notePos := by
  intro ch
  induction ch with
  | nil =>
    intro t a
    simp [withIdx, dirBound]
  | cons c rest ih =>
    intro t a
    cases c with
    | direction stext tags =>
      rw [show dirBound (withIdx t (MChild.direction stext tags :: rest)) =
        ((parse_direction_dynamics tags).filterMap fun tok =>
          (firstNoteIdx (parse_staff_index stext) (withIdx (t + 1) rest)).map
            fun k => ⟨t, k, parse_staff_index stext, tok⟩) ++
          dirBound (withIdx (t + 1) rest) from rfl]
      rw [List.mem_append]
      constructor
      · rintro (h | h)
        · rw [List.mem_filterMap] at h
          obtain ⟨tok, htok, hmap⟩ := h
          rw [Option.map_eq_some'] at hmap
          obtain ⟨k, hfn, hak⟩ := hmap
          subst hak
          exact ⟨0, by simp, ⟨stext, tags, by simp, rfl, htok⟩, by simpa using hfn⟩
        · obtain ⟨d, hd, hex, hfn⟩ := (ih (t + 1) a).mp h
          refine ⟨d + 1, by omega, by simpa using hex, ?_⟩
          rw [show t + (d + 1) + 1 = t + 1 + d + 1 by omega]
          simpa using hfn
      · rintro ⟨d, hd, hex, hfn⟩
        cases d with
        | zero =>
          obtain ⟨stext', tags', hget, hstaff, htok⟩ := hex
          rw [List.getElem?_cons_zero] at hget
          cases hget
          left
          rw [List.mem_filterMap]
          refine ⟨a.token, htok, ?_⟩
          rw [Option.map_eq_some']
          refine ⟨a.notePos, ?_, ?_⟩
          · rw [← hstaff]
            simpa using hfn
          · cases a
            simp_all
        | succ d =>
          right
          refine (ih (t + 1) a).mpr ⟨d, by omega, by simpa using hex, ?_⟩
          rw [show t + 1 + d + 1 = t + (d + 1) + 1 by omega]
          simpa using hfn
    | note stext r =>
      rw [show dirBound (withIdx t (MChild.note stext r :: rest)) =
        dirBound (withIdx (t + 1) rest) from rfl]
      rw [ih (t + 1) a]
      constructor
      · rintro ⟨d, hd, hex, hfn⟩
        refine ⟨d + 1, by omega, by simpa using hex, ?_⟩
        rw [show t + (d + 1) + 1 = t + 1 + d + 1 by omega]
        simpa using hfn
      · rintro ⟨d, hd, hex, hfn⟩
        cases d with
        | zero =>
          obtain ⟨stext', tags', hget, _, _⟩ := hex
          rw [List.getElem?_cons_zero] at hget
          cases hget
        | succ d =>
          refine ⟨d, by omega, by simpa using hex, ?_⟩
          rw [show t + 1 + d + 1 = t + (d + 1) + 1 by omega]
          simpa using hfn
    | other =>
      rw [show dirBound (withIdx t (MChild.other :: rest)) =
        dirBound (withIdx (t + 1) rest) from rfl]
      rw [ih (t + 1) a]
      constructor
      · rintro ⟨d, hd, hex, hfn⟩
        refine ⟨d + 1, by omega, by simpa using hex, ?_⟩
        rw [show t + (d + 1) + 1 = t + 1 + d + 1 by omega]
        simpa using hfn
      · rintro ⟨d, hd, hex, hfn⟩
        cases d with
        | zero =>
          obtain ⟨stext', tags', hget, _, _⟩ := hex
          rw [List.getElem?_cons_zero] at hget
          cases hget
        | succ d =>
          refine ⟨d, by omega, by simpa using hex, ?_⟩
          rw [show t + 1 + d + 1 = t + (d + 1) + 1 by omega]
          simpa using hfn

end ExpressionPass

namespace ExpressionPass

theorem mem_expr_walk :
    ∀ (l : List (Nat × MChild)) (q : Int → List (Nat × String)) (a : Attach),
      a ∈ expr_walk q l ↔
        (((a.dirPos, a.token) ∈ q a.staff ∧
          firstNoteIdx a.staff l = some a.notePos) ∨ a ∈ dirBound l) := by
  intro l
  induction l with
  | nil =>
    intro q a
    simp [expr_walk, firstNoteIdx, dirBound]
  | cons p rest ih =>
    intro q a
    obtain ⟨i, c⟩ := p
    cases c with
    | other =>
      rw [show expr_walk q ((i, MChild.other) :: rest) = expr_walk q rest from rfl,
        show firstNoteIdx a.staff ((i, MChild.other) :: rest) =
          firstNoteIdx a.staff rest from rfl,
        show dirBound ((i, MChild.other) :: rest) = dirBound rest from rfl]
      exact ih q a
    | direction stext tags =>
      rw [show expr_walk q ((i, MChild.direction stext tags) :: rest) =
        expr_walk (Function.update q (parse_staff_index stext)
          (q (parse_staff_index stext) ++
            (parse_direction_dynamics tags).map fun tok => (i, tok))) rest from rfl]
      rw [ih _ a]
      rw [show firstNoteIdx a.staff ((i, MChild.direction stext tags) :: rest) =
        firstNoteIdx a.staff rest from rfl]
      rw [show dirBound ((i, MChild.direction stext tags) :: rest) =
        ((parse_direction_dynamics tags).filterMap fun tok =>
          (firstNoteIdx (parse_staff_index stext) rest).map
            fun k => ⟨i, k, parse_staff_index stext, tok⟩) ++ dirBound rest from rfl]
      rw [List.mem_append]
      by_cases hsa : a.staff = parse_staff_index stext
      · rw [hsa, Function.update_same]
        constructor
        · rintro (⟨hmem, hfn⟩ | hdb)
          · rcases List.mem_append.mp hmem with hq | hnew
            · exact Or.inl ⟨hq, hfn⟩
            · rw [List.mem_map] at hnew
              obtain ⟨tok, htok, heq⟩ := hnew
              have h1 : i = a.dirPos := congrArg Prod.fst heq
              have h2 : tok = a.token := congrArg Prod.snd heq
              refine Or.inr (Or.inl ?_)
              rw [List.mem_filterMap]
              refine ⟨tok, htok, ?_⟩
              rw [Option.map_eq_some']
              refine ⟨a.notePos, hfn, ?_⟩
              cases a
              simp_all
          · exact Or.inr (Or.inr hdb)
        · rintro (⟨hmem, hfn⟩ | hhead | hdb)
          · exact Or.inl ⟨List.mem_append_left _ hmem, hfn⟩
          · rw [List.mem_filterMap] at hhead
            obtain ⟨tok, htok, hmap⟩ := hhead
            rw [Option.map_eq_some'] at hmap
            obtain ⟨k, hfn', hak⟩ := hmap
            refine Or.inl ⟨List.mem_append_right _ ?_, ?_⟩
            · rw [List.mem_map]
              refine ⟨tok, htok, ?_⟩
              rw [← hak]
            · rw [← hak]
              simpa using hfn'
          · exact Or.inr hdb
      · rw [Function.update_noteq hsa]
        constructor
        · rintro (⟨hmem, hfn⟩ | hdb)
          · exact Or.inl ⟨hmem, hfn⟩
          · exact Or.inr (Or.inr hdb)
        · rintro (⟨hmem, hfn⟩ | hhead | hdb)
          · exact Or.inl ⟨hmem, hfn⟩
          · rw [List.mem_filterMap] at hhead
            obtain ⟨tok, htok, hmap⟩ := hhead
            rw [Option.map_eq_some'] at hmap
            obtain ⟨k, hfn', hak⟩ := hmap
            exact absurd (by rw [← hak]) hsa
          · exact Or.inr hdb
    | note stext r =>
      rw [show expr_walk q ((i, MChild.note stext r) :: rest) =
        ((q (parse_staff_index stext)).map
          fun p => ⟨p.1, i, parse_staff_index stext, p.2⟩) ++
          expr_walk (Function.update q (parse_staff_index stext) []) rest from rfl]
      rw [List.mem_append, ih _ a]
      rw [show firstNoteIdx a.staff ((i, MChild.note stext r) :: rest) =
        (if parse_staff_index stext = a.staff then some i
          else firstNoteIdx a.staff rest) from rfl]
      rw [show dirBound ((i, MChild.note stext r) :: rest) = dirBound rest from rfl]
      by_cases hsa : a.staff = parse_staff_index stext
      · rw [if_pos hsa.symm]
        constructor
        · rintro (hmap | ⟨hmem, hfn⟩ | hdb)
          · rw [List.mem_map] at hmap
            obtain ⟨pr, hpr, hak⟩ := hmap
            subst hak
            exact Or.inl ⟨by simpa using hpr, by simp⟩
          · rw [hsa, Function.update_same] at hmem
            cases hmem
          · exact Or.inr hdb
        · rintro (⟨hmem, hfn⟩ | hdb)
          · left
            rw [List.mem_map]
            refine ⟨(a.dirPos, a.token), by rw [← hsa]; exact hmem, ?_⟩
            have hnp : a.notePos = i := by
              have := Option.some.inj hfn; omega
            cases a
            simp_all
          · exact Or.inr (Or.inr hdb)
      · rw [if_neg (fun h => hsa h.symm)]
        rw [Function.update_noteq hsa]
        constructor
        · rintro (hmap | ⟨hmem, hfn⟩ | hdb)
          · rw [List.mem_map] at hmap
            obtain ⟨pr, hpr, hak⟩ := hmap
            exact absurd (by rw [← hak]) hsa
          · exact Or.inl ⟨hmem, hfn⟩
          · exact Or.inr hdb
        · rintro (⟨hmem, hfn⟩ | hdb)
          · exact Or.inr (Or.inl ⟨hmem, hfn⟩)
          · exact Or.inr (Or.inr hdb)

end ExpressionPass

/-- Claim C4: within a measure, a direction-level loudness token attaches to
exactly the first following note-or-rest on the direction's staff: an
attachment exists precisely when the spec `BindSpec` holds (same staff, the
note is after the direction, and no note on that staff lies between); for a
fixed direction and staff the receiving note is unique; and every attachment
of the whole pass binds within a single measure, since the per-staff pending
queue starts empty at each measure and is cleared at each flush. -/
theorem C4_dynamics_binding :
    (∀ (children : List MChild) (a : ExpressionPass.Attach),
      a ∈ ExpressionPass.exprMeasureAttach children ↔
        ExpressionPass.BindSpec children a) ∧
    (∀ (children : List MChild) (a1 a2 : ExpressionPass.Attach),
      a1 ∈ ExpressionPass.exprMeasureAttach children →
      a2 ∈ ExpressionPass.exprMeasureAttach children →
      a1.dirPos = a2.dirPos → a1.staff = a2.staff → a1.notePos = a2.notePos) ∧
    (∀ (ms : List Measure) (p : Nat) (a : ExpressionPass.Attach),
      (p, a) ∈ ExpressionPass.expression_attachments ms →
      ExpressionPass.BindSpec (ms.getD p emptyMeasure).children a) := by
  have key : ∀ (children : List MChild) (a : ExpressionPass.Attach),
      a ∈ ExpressionPass.exprMeasureAttach children ↔
        ExpressionPass.BindSpec children a := by
    intro children a
    unfold ExpressionPass.exprMeasureAttach
    rw [ExpressionPass.mem_expr_walk]
    constructor
    · rintro (⟨hmem, _⟩ | hdb)
      · cases hmem
      · obtain ⟨d, hd, hex, hfn⟩ :=
          (ExpressionPass.dirBound_withIdx children 0 a).mp hdb
        obtain ⟨d2, hnp, hex2, hnone⟩ :=
          (ExpressionPass.firstNoteIdx_withIdx a.staff (children.drop (d + 1))
            (0 + d + 1) a.notePos).mp hfn
        refine ⟨?_, by omega, ?_, ?_⟩
        · rw [show a.dirPos = d by omega]
          exact hex
        · obtain ⟨stext, r, hget, hps⟩ := hex2
          rw [List.getElem?_drop] at hget
          refine ⟨stext, r, ?_, hps⟩
          rw [show a.notePos = d + 1 + d2 by omega]
          exact hget
        · intro j stext r hj1 hj2 hget
          apply hnone (j - (d + 1)) stext r (by omega)
          rw [List.getElem?_drop]
          rw [show d + 1 + (j - (d + 1)) = j by omega]
          exact hget
    · rintro ⟨hex, hlt, hexn, hnone⟩
      right
      apply (ExpressionPass.dirBound_withIdx children 0 a).mpr
      refine ⟨a.dirPos, by omega, hex, ?_⟩
      apply (ExpressionPass.firstNoteIdx_withIdx a.staff
        (children.drop (a.dirPos + 1)) (0 + a.dirPos + 1) a.notePos).mpr
      refine ⟨a.notePos - a.dirPos - 1, by omega, ?_, ?_⟩
      · obtain ⟨stext, r, hget, hps⟩ := hexn
        refine ⟨stext, r, ?_, hps⟩
        rw [List.getElem?_drop]
        rw [show a.dirPos + 1 + (a.notePos - a.dirPos - 1) = a.notePos by omega]
        exact hget
      · intro j stext r hj hget
        rw [List.getElem?_drop] at hget
        exact hnone (a.dirPos + 1 + j) stext r (by omega) (by omega) hget
  refine ⟨key, ?_, ?_⟩
  · intro children a1 a2 h1 h2 hd hs
    have b1 := (key children a1).mp h1
    have b2 := (key children a2).mp h2
    rcases lt_trichotomy a1.notePos a2.notePos with h | h | h
    · exfalso
      obtain ⟨stext, r, hget, hps⟩ := b1.2.2.1
      have hlt1 := b1.2.1
      exact b2.2.2.2 a1.notePos stext r (by omega) h hget (by rw [hps, hs])
    · exact h
    · exfalso
      obtain ⟨stext, r, hget, hps⟩ := b2.2.2.1
      have hlt2 := b2.2.1
      exact b1.2.2.2 a2.notePos stext r (by omega) h hget (by rw [hps, ← hs])
  · intro ms p a hmem
    unfold ExpressionPass.expression_attachments at hmem
    rw [List.mem_flatMap] at hmem
    obtain ⟨pr, hpr, hmem2⟩ := hmem
    rw [List.mem_map] at hmem2
    obtain ⟨a', ha', heq⟩ := hmem2
    have hp : pr.2 = p := congrArg Prod.fst heq
    have ha : a' = a := congrArg Prod.snd heq
    rw [hp, ha] at ha'
    exact (key _ a).mp ha'

/-- C4 witness: a measure `[direction "p" (staff 1), note (staff 1)]`
produces the attachment of token `"p"` from child 0 to child 1, and the
binding specification holds for it; the uniqueness clause applied to that
attachment twice is satisfied. -/
theorem C4_witness :
    ((⟨0, 1, 1, "p"⟩ : ExpressionPass.Attach) ∈
      ExpressionPass.exprMeasureAttach
        [MChild.direction none ["p"], MChild.note none false]) ∧
    ExpressionPass.BindSpec [MChild.direction none ["p"], MChild.note none false]
      ⟨0, 1, 1, "p"⟩ := by
  have hmem : (⟨0, 1, 1, "p"⟩ : ExpressionPass.Attach) ∈
      ExpressionPass.exprMeasureAttach
        [MChild.direction none ["p"], MChild.note none false] := by
    decide
  exact ⟨hmem,
    (C4_dynamics_binding.1 [MChild.direction none ["p"], MChild.note none false]
      ⟨0, 1, 1, "p"⟩).mp hmem⟩

namespace StructurePass

theorem core_id (n : SNode) : (core n).id = n.id := rfl

theorem core_types (n : SNode) : (core n).types = n.types := rfl

theorem getRF_core (r : RF) (n : SNode) : getRF r (core n) = getRF r n := by
  cases r <;> rfl

theorem hasStr_append_unique_self (l : List GItem) (t : String) :
    hasStr (append_unique_id_ref l t) t = true := by
  unfold append_unique_id_ref
  split
  · assumption
  · simp [hasStr]

theorem hasStr_append_unique_mono {l : List GItem} {u : String} (t : String)
    (h : hasStr l u = true) : hasStr (append_unique_id_ref l t) u = true := by
  unfold append_unique_id_ref
  split
  · exact h
  · unfold hasStr at h ⊢
    rw [List.any_append, h]
    rfl

theorem append_unique_eq_of_hasStr {l : List GItem} {t : String}
    (h : hasStr l t = true) : append_unique_id_ref l t = l := by
  unfold append_unique_id_ref
  rw [if_pos h]

theorem hasStr_mergeStr_mono (base : List String) {l : List GItem} {u : String}
    (h : hasStr l u = true) : hasStr (mergeStr base l) u = true := by
  induction base generalizing l with
  | nil => exact h
  | cons t ts ih =>
    rw [show mergeStr (t :: ts) l =
      mergeStr ts (if hasStr l t then l else l ++ [GItem.str t]) from rfl]
    apply ih
    split
    · exact h
    · unfold hasStr at h ⊢
      rw [List.any_append, h]
      rfl

theorem hasStr_mergeStr_of_mem {base : List String} {t : String} (l : List GItem)
    (h : t ∈ base) : hasStr (mergeStr base l) t = true := by
  induction base generalizing l with
  | nil => cases h
  | cons u ts ih =>
    rw [show mergeStr (u :: ts) l =
      mergeStr ts (if hasStr l u then l else l ++ [GItem.str u]) from rfl]
    rcases List.mem_cons.mp h with rfl | h
    · apply hasStr_mergeStr_mono
      split
      · assumption
      · simp [hasStr]
    · exact ih _ h

theorem mergeStr_eq_of_all {base : List String} {l : List GItem}
    (h : ∀ t ∈ base, hasStr l t = true) : mergeStr base l = l := by
  induction base with
  | nil => rfl
  | cons t ts ih =>
    rw [show mergeStr (t :: ts) l =
      mergeStr ts (if hasStr l t then l else l ++ [GItem.str t]) from rfl]
    rw [if_pos (h t (by simp))]
    exact ih fun u hu => h u (List.mem_cons_of_mem _ hu)

theorem foldl_append_unique_mono (sids : List String) {l : List GItem} {u : String}
    (h : hasStr l u = true) : hasStr (sids.foldl append_unique_id_ref l) u = true := by
  induction sids generalizing l with
  | nil => exact h
  | cons s ss ih => exact ih (hasStr_append_unique_mono s h)

theorem foldl_append_unique_of_mem {sids : List String} {t : String} (l : List GItem)
    (h : t ∈ sids) : hasStr (sids.foldl append_unique_id_ref l) t = true := by
  induction sids generalizing l with
  | nil => cases h
  | cons s ss ih =>
    rcases List.mem_cons.mp h with rfl | h
    · exact foldl_append_unique_mono ss (hasStr_append_unique_self l t)
    · exact ih _ h

theorem foldl_append_unique_eq_of_all {sids : List String} {l : List GItem}
    (h : ∀ t ∈ sids, hasStr l t = true) : sids.foldl append_unique_id_ref l = l := by
  induction sids with
  | nil => rfl
  | cons s ss ih =>
    rw [show (s :: ss).foldl append_unique_id_ref l =
      ss.foldl append_unique_id_ref (append_unique_id_ref l s) from rfl]
    rw [append_unique_eq_of_hasStr (h s (by simp))]
    exact ih fun u hu => h u (List.mem_cons_of_mem _ hu)

theorem hasStr_map_str {base : List String} {t : String} (h : t ∈ base) :
    hasStr (base.map GItem.str) t = true := by
  unfold hasStr
  rw [List.any_eq_true]
  exact ⟨GItem.str t, List.mem_map_of_mem _ h, by simp⟩

theorem lookupLast_cons (n : SNode) (rest : List SNode) (s : String) :
    lookupLast (n :: rest) s =
      match lookupLast rest s with
      | some x => some x
      | none => if n.id = some s then some n else none := rfl

theorem updateLast_cons (n : SNode) (rest : List SNode) (s : String) (f : SNode → SNode) :
    updateLast (n :: rest) s f =
      if rest.any (fun m => m.id = some s) then n :: updateLast rest s f
      else if n.id = some s then f n :: rest else n :: rest := rfl

theorem lookupLast_append_single (g : List SNode) (n : SNode) (s : String) :
    lookupLast (g ++ [n]) s = if n.id = some s then some n else lookupLast g s := by
  induction g with
  | nil =>
    rw [List.nil_append, lookupLast_cons]
    rw [show lookupLast ([] : List SNode) s = none from rfl]
  | cons m g ih =>
    rw [List.cons_append, lookupLast_cons, ih, lookupLast_cons]
    by_cases hn : n.id = some s
    · rw [if_pos hn, if_pos hn]
    · rw [if_neg hn, if_neg hn]

theorem lookupLast_isSome_iff_any (g : List SNode) (s : String) :
    (lookupLast g s).isSome = g.any fun m => m.id = some s := by
  induction g with
  | nil => rfl
  | cons n g ih =>
    rw [lookupLast_cons, List.any_cons]
    cases h : lookupLast g s with
    | some x =>
      rw [h] at ih
      simp only [Option.isSome_some] at ih ⊢
      rw [← ih]
      simp
    | none =>
      rw [h] at ih
      simp only [Option.isSome_none] at ih
      rw [← ih]
      by_cases hn : n.id = some s
      · simp [hn]
      · simp [hn]

theorem lookupLast_none_of_any_false {g : List SNode} {s : String}
    (h : (g.any fun m => m.id = some s) = false) : lookupLast g s = none := by
  have h2 := lookupLast_isSome_iff_any g s
  rw [h] at h2
  exact Option.not_isSome_iff_eq_none.mp (by rw [h2]; simp)

theorem updateLast_length (g : List SNode) (s : String) (f : SNode → SNode) :
    (updateLast g s f).length = g.length := by
  induction g with
  | nil => rfl
  | cons n rest ih =>
    rw [updateLast_cons]
    split
    · simpa using ih
    · split <;> rfl

theorem lookupLast_updateLast {f : SNode → SNode} (hf : ∀ n, (f n).id = n.id)
    (g : List SNode) (s : String) :
    ∀ t, lookupLast (updateLast g s f) t =
      if t = s then (lookupLast g s).map f else lookupLast g t := by
  induction g with
  | nil =>
    intro t
    rw [show updateLast [] s f = [] from rfl]
    rw [show lookupLast ([] : List SNode) t = none from rfl,
      show lookupLast ([] : List SNode) s = none from rfl]
    split <;> rfl
  | cons n rest ih =>
    intro t
    rw [updateLast_cons]
    by_cases hany : (rest.any fun m => m.id = some s) = true
    · rw [if_pos hany, lookupLast_cons, ih t, lookupLast_cons]
      obtain ⟨x, hx⟩ := Option.isSome_iff_exists.mp
        (show (lookupLast rest s).isSome = true by
          rw [lookupLast_isSome_iff_any, hany])
      by_cases hts : t = s
      · subst hts
        rw [if_pos rfl, if_pos rfl, hx]
        rfl
      · rw [if_neg hts, if_neg hts]
        exact (lookupLast_cons n rest t).symm
    · rw [if_neg hany]
      have hnone : lookupLast rest s = none :=
        lookupLast_none_of_any_false (Bool.not_eq_true _ ▸ hany)
      by_cases hid : n.id = some s
      · rw [if_pos hid]
        by_cases hts : t = s
        · subst hts
          rw [if_pos rfl, lookupLast_cons, lookupLast_cons, hnone]
          rw [show (match (none : Option SNode) with
            | some x => some x
            | none => if n.id = some t then some n else none) =
              if n.id = some t then some n else none from rfl]
          rw [show (match (none : Option SNode) with
            | some x => some x
            | none => if (f n).id = some t then some (f n) else none) =
              if (f n).id = some t then some (f n) else none from rfl]
          rw [hf n, if_pos hid, if_pos hid]
          rfl
        · rw [if_neg hts, lookupLast_cons, lookupLast_cons]
          cases hlt : lookupLast rest t with
          | some y => rfl
          | none =>
            rw [hf n]
            have hnt : n.id ≠ some t := by
              rw [hid]
              intro hcon
              exact hts (Option.some.inj hcon).symm
            rw [if_neg hnt, if_neg hnt]
      · rw [if_neg hid]
        by_cases hts : t = s
        · subst hts
          rw [if_pos rfl, lookupLast_cons, hnone]
          rw [show (match (none : Option SNode) with
            | some x => some x
            | none => if n.id = some t then some n else none) =
              if n.id = some t then some n else none from rfl]
          rw [if_neg hid]
          rfl
        · rw [if_neg hts]

end StructurePass

namespace StructurePass

theorem updateLast_congr {g : List SNode} {s : String} {f : SNode → SNode} {m : SNode}
    (hm : lookupLast g s = some m) (hfm : f m = m) : updateLast g s f = g := by
  induction g with
  | nil => rfl
  | cons n rest ih =>
    rw [updateLast_cons]
    rw [lookupLast_cons] at hm
    by_cases hany : (rest.any fun x => x.id = some s) = true
    · rw [if_pos hany]
      obtain ⟨x, hx⟩ := Option.isSome_iff_exists.mp
        (show (lookupLast rest s).isSome = true by rw [lookupLast_isSome_iff_any, hany])
      rw [hx] at hm
      have hxm : x = m := Option.some.inj hm
      subst hxm
      rw [ih hx]
    · rw [if_neg hany]
      have hnone : lookupLast rest s = none :=
        lookupLast_none_of_any_false (Bool.not_eq_true _ ▸ hany)
      rw [hnone] at hm
      by_cases hid : n.id = some s
      · rw [if_pos hid] at hm ⊢
        have hnm : n = m := Option.some.inj hm
        subst hnm
        rw [hfm]
      · rw [if_neg hid] at hm
        cases hm

theorem updateLast_map_core_target {g : List SNode} {s : String} {f : SNode → SNode}
    {m : SNode} (hm : lookupLast g s = some m) (hfm : core (f m) = core m) :
    (updateLast g s f).map core = g.map core := by
  induction g with
  | nil => rfl
  | cons n rest ih =>
    rw [updateLast_cons]
    rw [lookupLast_cons] at hm
    by_cases hany : (rest.any fun x => x.id = some s) = true
    · rw [if_pos hany]
      obtain ⟨x, hx⟩ := Option.isSome_iff_exists.mp
        (show (lookupLast rest s).isSome = true by rw [lookupLast_isSome_iff_any, hany])
      rw [hx] at hm
      have hxm : x = m := Option.some.inj hm
      subst hxm
      rw [List.map_cons, List.map_cons, ih hx]
    · rw [if_neg hany]
      have hnone : lookupLast rest s = none :=
        lookupLast_none_of_any_false (Bool.not_eq_true _ ▸ hany)
      rw [hnone] at hm
      by_cases hid : n.id = some s
      · rw [if_pos hid]
        rw [if_pos hid] at hm
        have hnm : n = m := Option.some.inj hm
        subst hnm
        rw [List.map_cons, List.map_cons, hfm]
      · rw [if_neg hid] at hm
        cases hm

theorem lookupLast_map_core : ∀ {g h : List SNode}, g.map core = h.map core →
    ∀ s, (lookupLast g s).map core = (lookupLast h s).map core := by
  intro g
  induction g with
  | nil =>
    intro h hgh s
    have hh : h = [] := by
      cases h with
      | nil => rfl
      | cons m h' => simp at hgh
    subst hh
    rfl
  | cons n g' ih =>
    intro h hgh s
    cases h with
    | nil => simp at hgh
    | cons m h' =>
      rw [List.map_cons, List.map_cons] at hgh
      have h1 : core n = core m := (List.cons_eq_cons.mp hgh).1
      have h2 : g'.map core = h'.map core := (List.cons_eq_cons.mp hgh).2
      rw [lookupLast_cons, lookupLast_cons]
      have hrec := ih h2 s
      cases hg : lookupLast g' s with
      | some x =>
        rw [hg] at hrec
        cases hh : lookupLast h' s with
        | some y =>
          rw [hh] at hrec
          simpa using hrec
        | none =>
          rw [hh] at hrec
          simp at hrec
      | none =>
        rw [hg] at hrec
        cases hh : lookupLast h' s with
        | some y =>
          rw [hh] at hrec
          simp at hrec
        | none =>
          have hid : n.id = m.id := by rw [← core_id n, ← core_id m, h1]
          by_cases hns : n.id = some s
          · rw [if_pos hns, if_pos (by rw [← hid]; exact hns)]
            simpa using h1
          · rw [if_neg hns, if_neg (by rw [← hid]; exact hns)]

theorem memId_map_core {g h : List SNode} (hgh : g.map core = h.map core) {s : String} :
    MemId g s → MemId h s := by
  rintro ⟨n, hn⟩
  have hmap := lookupLast_map_core hgh s
  rw [hn] at hmap
  cases hh : lookupLast h s with
  | some m => exact ⟨m, hh⟩
  | none => rw [hh] at hmap; simp at hmap

theorem factT_map_core {g h : List SNode} (hgh : g.map core = h.map core)
    {s t : String} : FactT g s t → FactT h s t := by
  rintro ⟨n, hn, ht⟩
  have hmap := lookupLast_map_core hgh s
  rw [hn] at hmap
  cases hh : lookupLast h s with
  | none => rw [hh] at hmap; simp at hmap
  | some m =>
    rw [hh] at hmap
    have hc : core n = core m := by simpa using hmap
    refine ⟨m, hh, ?_⟩
    rw [← core_types m, ← hc, core_types]
    exact ht

theorem factR_map_core {g h : List SNode} (hgh : g.map core = h.map core)
    {r : RF} {s t : String} : FactR r g s t → FactR r h s t := by
  rintro ⟨n, hn, ht⟩
  have hmap := lookupLast_map_core hgh s
  rw [hn] at hmap
  cases hh : lookupLast h s with
  | none => rw [hh] at hmap; simp at hmap
  | some m =>
    rw [hh] at hmap
    have hc : core n = core m := by simpa using hmap
    refine ⟨m, hh, ?_⟩
    rw [← getRF_core r m, ← hc, getRF_core r]
    exact ht

theorem preserves_refl (g : List SNode) : Preserves g g :=
  ⟨fun _ h => h, fun _ _ h => h, fun _ _ _ h => h⟩

theorem preserves_trans {g h k : List SNode} (h1 : Preserves g h) (h2 : Preserves h k) :
    Preserves g k :=
  ⟨fun s hm => h2.1 s (h1.1 s hm), fun s t hf => h2.2.1 s t (h1.2.1 s t hf),
    fun r s t hf => h2.2.2 r s t (h1.2.2 r s t hf)⟩

theorem preserves_updateLast {f : SNode → SNode} (hid : ∀ n, (f n).id = n.id)
    (hty : ∀ n t, hasStr n.types t = true → hasStr (f n).types t = true)
    (hrf : ∀ r n t, hasStr (getRF r n) t = true → hasStr (getRF r (f n)) t = true)
    (g : List SNode) (s0 : String) : Preserves g (updateLast g s0 f) := by
  refine ⟨?_, ?_, ?_⟩
  · rintro s ⟨n, hn⟩
    rw [show MemId (updateLast g s0 f) s = ∃ m, lookupLast (updateLast g s0 f) s = some m
      from rfl]
    rw [lookupLast_updateLast hid g s0 s]
    by_cases hss : s = s0
    · subst hss
      rw [if_pos rfl, hn]
      exact ⟨f n, rfl⟩
    · rw [if_neg hss]
      exact ⟨n, hn⟩
  · rintro s t ⟨n, hn, ht⟩
    rw [show FactT (updateLast g s0 f) s t =
      ∃ m, lookupLast (updateLast g s0 f) s = some m ∧ hasStr m.types t = true from rfl]
    rw [lookupLast_updateLast hid g s0 s]
    by_cases hss : s = s0
    · subst hss
      rw [if_pos rfl, hn]
      exact ⟨f n, rfl, hty n t ht⟩
    · rw [if_neg hss]
      exact ⟨n, hn, ht⟩
  · rintro r s t ⟨n, hn, ht⟩
    rw [show FactR r (updateLast g s0 f) s t =
      ∃ m, lookupLast (updateLast g s0 f) s = some m ∧ hasStr (getRF r m) t = true
      from rfl]
    rw [lookupLast_updateLast hid g s0 s]
    by_cases hss : s = s0
    · subst hss
      rw [if_pos rfl, hn]
      exact ⟨f n, rfl, hrf r n t ht⟩
    · rw [if_neg hss]
      exact ⟨n, hn, ht⟩

theorem preserves_goc {init : SNode} {onExist : SNode → SNode} (g : List SNode)
    (nid : String) (hinitid : init.id = some nid)
    (hid : ∀ n, (onExist n).id = n.id)
    (hty : ∀ n t, hasStr n.types t = true → hasStr (onExist n).types t = true)
    (hrf : ∀ r n t, hasStr (getRF r n) t = true → hasStr (getRF r (onExist n)) t = true) :
    Preserves g (goc g nid init onExist) := by
  unfold goc
  cases hg : lookupLast g nid with
  | some m => exact preserves_updateLast hid hty hrf g nid
  | none =>
    refine ⟨?_, ?_, ?_⟩
    · rintro s ⟨n, hn⟩
      refine ⟨if init.id = some s then init else n, ?_⟩
      rw [lookupLast_append_single]
      split
      · rfl
      · exact hn
    · rintro s t ⟨n, hn, ht⟩
      have hns : init.id ≠ some s := by
        rw [hinitid]
        intro hcon
        have : nid = s := Option.some.inj hcon
        subst this
        rw [hn] at hg
        cases hg
      exact ⟨n, by rw [lookupLast_append_single, if_neg hns]; exact hn, ht⟩
    · rintro r s t ⟨n, hn, ht⟩
      have hns : init.id ≠ some s := by
        rw [hinitid]
        intro hcon
        have : nid = s := Option.some.inj hcon
        subst this
        rw [hn] at hg
        cases hg
      exact ⟨n, by rw [lookupLast_append_single, if_neg hns]; exact hn, ht⟩

theorem preserves_foldl {α : Type} (f : List SNode → α → List SNode) :
    ∀ (l : List α) (g : List SNode), (∀ g x, x ∈ l → Preserves g (f g x)) →
      Preserves g (l.foldl f g) := by
  intro l
  induction l with
  | nil => intro g _; exact preserves_refl g
  | cons x xs ih =>
    intro g hf
    exact preserves_trans (hf g x (by simp))
      (ih (f g x) fun g' y hy => hf g' y (List.mem_cons_of_mem _ hy))

theorem foldl_inv {α : Type} (f : List SNode → α → List SNode) (I : List SNode → Prop) :
    ∀ (l : List α) (g : List SNode), (∀ g x, x ∈ l → I g → I (f g x)) →
      I g → I (l.foldl f g) := by
  intro l
  induction l with
  | nil => intro g _ hI; exact hI
  | cons x xs ih =>
    intro g hstep hI
    exact ih (f g x) (fun g' y hy => hstep g' y (List.mem_cons_of_mem _ hy))
      (hstep g x (by simp) hI)

theorem foldl_est {α : Type} (f : List SNode → α → List SNode) (P : α → List SNode → Prop)
    (I : List SNode → Prop) :
    ∀ (l : List α) (g : List SNode),
      (∀ g x, x ∈ l → Preserves g (f g x)) →
      (∀ g x, I g → x ∈ l → P x (f g x)) →
      (∀ g h, Preserves g h → I g → I h) →
      (∀ x g h, Preserves g h → P x g → P x h) →
      I g → ∀ x ∈ l, P x (l.foldl f g) := by
  intro l
  induction l with
  | nil => intro g _ _ _ _ _ x hx; cases hx
  | cons y ys ih =>
    intro g hpres hstep hIs hPs hI x hx
    rcases List.mem_cons.mp hx with rfl | hx
    · have h1 : P x (f g x) := hstep g x hI (by simp)
      have h2 : Preserves (f g x) (ys.foldl f (f g x)) :=
        preserves_foldl f ys (f g x) fun g' z hz => hpres g' z (List.mem_cons_of_mem _ hz)
      exact hPs x _ _ h2 h1
    · exact ih (f g y) (fun g' z hz => hpres g' z (List.mem_cons_of_mem _ hz))
        (fun g' z hIg hz => hstep g' z hIg (List.mem_cons_of_mem _ hz)) hIs hPs
        (hIs g (f g y) (hpres g y (by simp)) hI) x hx

theorem memId_of_factT {g : List SNode} {s t : String} (h : FactT g s t) : MemId g s :=
  ⟨h.choose, h.choose_spec.1⟩

theorem est_goc_memId {init : SNode} {onExist : SNode → SNode} (g : List SNode)
    (nid : String) (hinitid : init.id = some nid)
    (hid : ∀ n, (onExist n).id = n.id) : MemId (goc g nid init onExist) nid := by
  unfold goc
  cases hg : lookupLast g nid with
  | none => exact ⟨init, by rw [lookupLast_append_single, if_pos hinitid]⟩
  | some m =>
    refine ⟨onExist m, ?_⟩
    rw [lookupLast_updateLast hid g nid nid, if_pos rfl, hg]
    rfl

theorem est_goc_type {init : SNode} {onExist : SNode → SNode} {t : String}
    (g : List SNode) (nid : String) (hinitid : init.id = some nid)
    (hid : ∀ n, (onExist n).id = n.id)
    (hinit : hasStr init.types t = true)
    (hex : ∀ n, hasStr (onExist n).types t = true) :
    FactT (goc g nid init onExist) nid t := by
  unfold goc
  cases hg : lookupLast g nid with
  | none => exact ⟨init, by rw [lookupLast_append_single, if_pos hinitid], hinit⟩
  | some m =>
    refine ⟨onExist m, ?_, hex m⟩
    rw [lookupLast_updateLast hid g nid nid, if_pos rfl, hg]
    rfl

theorem est_goc_ref {init : SNode} {onExist : SNode → SNode} {r : RF} {t : String}
    (g : List SNode) (nid : String) (hinitid : init.id = some nid)
    (hid : ∀ n, (onExist n).id = n.id)
    (hinit : hasStr (getRF r init) t = true)
    (hex : ∀ n, hasStr (getRF r (onExist n)) t = true) :
    FactR r (goc g nid init onExist) nid t := by
  unfold goc
  cases hg : lookupLast g nid with
  | none => exact ⟨init, by rw [lookupLast_append_single, if_pos hinitid], hinit⟩
  | some m =>
    refine ⟨onExist m, ?_, hex m⟩
    rw [lookupLast_updateLast hid g nid nid, if_pos rfl, hg]
    rfl

theorem est_updateLast_ref {f : SNode → SNode} {r : RF} {t : String}
    (g : List SNode) (s : String) (hid : ∀ n, (f n).id = n.id)
    (hmem : MemId g s) (hex : ∀ n, hasStr (getRF r (f n)) t = true) :
    FactR r (updateLast g s f) s t := by
  obtain ⟨m, hm⟩ := hmem
  refine ⟨f m, ?_, hex m⟩
  rw [lookupLast_updateLast hid g s s, if_pos rfl, hm]
  rfl

end StructurePass

namespace StructurePass

theorem pres_mvGocStep (wl : String) (seg : Segment) (g : List SNode) :
    Preserves g (mvGocStep wl seg g) := by
  unfold mvGocStep
  refine preserves_goc g _ rfl ?_ ?_ ?_
  · intro n; rfl
  · intro n t h; exact hasStr_mergeStr_mono _ h
  · intro r n t h; cases r <;> exact h

theorem pres_mvIdxStep (wl : String) (seg : Segment) (g : List SNode) :
    Preserves g (mvIdxStep wl seg g) := by
  unfold mvIdxStep
  refine preserves_updateLast ?_ ?_ ?_ g _
  · intro n; rfl
  · intro n t h; exact h
  · intro r n t h; cases r <;> exact h

theorem staffOnExist_types_mono (sidx : Nat) (n : SNode) (t : String)
    (h : hasStr n.types t = true) :
    hasStr (if sidx = 2 then
        mergeStr ["so:LowerPianoStaff"]
          (if sidx = 1 then mergeStr ["so:UpperPianoStaff"] (mergeStr staff_base_types n.types)
            else mergeStr staff_base_types n.types)
      else if sidx = 1 then mergeStr ["so:UpperPianoStaff"] (mergeStr staff_base_types n.types)
        else mergeStr staff_base_types n.types) t = true := by
  split
  · apply hasStr_mergeStr_mono
    split
    · exact hasStr_mergeStr_mono _ (hasStr_mergeStr_mono _ h)
    · exact hasStr_mergeStr_mono _ h
  · split
    · exact hasStr_mergeStr_mono _ (hasStr_mergeStr_mono _ h)
    · exact hasStr_mergeStr_mono _ h

theorem pres_staffWork (wl : String) (k ns : Nat) :
    ∀ g, Preserves g (staffWork wl k ns g) := by
  intro g
  unfold staffWork
  apply preserves_foldl
  intro g' sidx _
  refine preserves_goc g' _ rfl ?_ ?_ ?_
  · intro n; rfl
  · intro n t h
    exact staffOnExist_types_mono sidx n t h
  · intro r n t h
    cases r <;> exact h

theorem pres_linkMovementStaffs (wl : String) (k ns : Nat) :
    ∀ g, Preserves g (linkMovementStaffs wl k ns g) := by
  intro g
  unfold linkMovementStaffs
  apply preserves_foldl
  intro g' sid _
  have h1 : Preserves g' (updateLast g' (movement_id wl k) fun n =>
      { n with movementHasStaff := append_unique_id_ref n.movementHasStaff sid }) := by
    refine preserves_updateLast ?_ ?_ ?_ g' _
    · intro n; rfl
    · intro n t h; exact h
    · intro r n t h
      cases r
      · exact h
      · exact hasStr_append_unique_mono _ h
      · exact h
      · exact h
      · exact h
      · exact h
  refine preserves_trans h1 ?_
  refine preserves_updateLast ?_ ?_ ?_ _ _
  · intro n; rfl
  · intro n t h; exact h
  · intro r n t h
    cases r
    · exact h
    · exact h
    · exact hasStr_append_unique_mono _ h
    · exact h
    · exact h
    · exact h

theorem pres_measureStep (wl : String) (k ns : Nat) (ms : List Measure) :
    ∀ g i, Preserves g (measureStep wl k ns ms g i) := by
  intro g i
  unfold measureStep
  refine preserves_goc g _ rfl ?_ ?_ ?_
  · intro n; rfl
  · intro n t h
    exact hasStr_mergeStr_mono _ h
  · intro r n t h
    cases r
    · exact h
    · exact h
    · exact h
    · exact h
    · exact h
    · exact foldl_append_unique_mono _ h

theorem pres_measuresFold (wl : String) (ns : Nat) (ms : List Measure) (seg : Segment) :
    ∀ g, Preserves g (measuresFold wl ns ms seg g) := by
  intro g
  unfold measuresFold
  apply preserves_foldl
  intro g' i _
  exact pres_measureStep wl seg.movementIndex ns ms g' i

theorem pres_mhmFold (wl : String) (ms : List Measure) (seg : Segment) :
    ∀ g, Preserves g (mhmFold wl ms seg g) := by
  intro g
  unfold mhmFold
  apply preserves_foldl
  intro g' mid _
  refine preserves_updateLast ?_ ?_ ?_ g' _
  · intro n; rfl
  · intro n t h; exact h
  · intro r n t h
    cases r
    · exact h
    · exact h
    · exact h
    · exact hasStr_append_unique_mono _ h
    · exact h
    · exact h

theorem pres_shmFold (wl : String) (ns : Nat) (ms : List Measure) (seg : Segment) :
    ∀ g, Preserves g (shmFold wl ns ms seg g) := by
  intro g
  unfold shmFold
  apply preserves_foldl
  intro g' sid _
  apply preserves_foldl
  intro g'' mid _
  refine preserves_updateLast ?_ ?_ ?_ g'' _
  · intro n; rfl
  · intro n t h; exact h
  · intro r n t h
    cases r
    · exact h
    · exact h
    · exact h
    · exact h
    · exact hasStr_append_unique_mono _ h
    · exact h

theorem pres_movementStep (wl : String) (ns : Nat) (ms : List Measure) :
    ∀ g seg, Preserves g (movementStep wl ns ms g seg) := by
  intro g seg
  unfold movementStep
  exact preserves_trans (pres_mvGocStep wl seg g)
    (preserves_trans (pres_mvIdxStep wl seg _)
      (preserves_trans (pres_staffWork wl seg.movementIndex ns _)
        (preserves_trans (pres_linkMovementStaffs wl seg.movementIndex ns _)
          (preserves_trans (pres_measuresFold wl ns ms seg _)
            (preserves_trans (pres_mhmFold wl ms seg _)
              (pres_shmFold wl ns ms seg _))))))

theorem pres_workStep (wl : String) (g : List SNode) :
    Preserves g (workStep wl g) := by
  unfold workStep
  refine preserves_goc g _ rfl ?_ ?_ ?_
  · intro n; rfl
  · intro n t h; exact hasStr_mergeStr_mono _ h
  · intro r n t h; cases r <;> exact h

theorem pres_workRefsFold (wl : String) (segs : List Segment) :
    ∀ g, Preserves g (workRefsFold wl segs g) := by
  intro g
  unfold workRefsFold
  apply preserves_foldl
  intro g' mid _
  refine preserves_updateLast ?_ ?_ ?_ g' _
  · intro n; rfl
  · intro n t h; exact h
  · intro r n t h
    cases r
    · exact hasStr_append_unique_mono _ h
    · exact h
    · exact h
    · exact h
    · exact h
    · exact h

end StructurePass

namespace StructurePass

theorem staffOnExist_types_of_mem (sidx : Nat) (n : SNode) (t : String)
    (h : t ∈ staffCreateTypes sidx) :
    hasStr (if sidx = 2 then
        mergeStr ["so:LowerPianoStaff"]
          (if sidx = 1 then mergeStr ["so:UpperPianoStaff"] (mergeStr staff_base_types n.types)
            else mergeStr staff_base_types n.types)
      else if sidx = 1 then mergeStr ["so:UpperPianoStaff"] (mergeStr staff_base_types n.types)
        else mergeStr staff_base_types n.types) t = true := by
  unfold staffCreateTypes at h
  rcases List.mem_append.mp h with hb | hr
  · have h1 : hasStr (mergeStr staff_base_types n.types) t = true :=
      hasStr_mergeStr_of_mem _ hb
    split
    · apply hasStr_mergeStr_mono
      split
      · exact hasStr_mergeStr_mono _ h1
      · exact h1
    · split
      · exact hasStr_mergeStr_mono _ h1
      · exact h1
  · by_cases h1 : sidx = 1
    · subst h1
      rw [if_pos rfl] at hr ⊢
      have ht : t = "so:UpperPianoStaff" := by simpa using hr
      subst ht
      rw [if_neg (by omega)]
      exact hasStr_mergeStr_of_mem _ (by simp)
    · by_cases h2 : sidx = 2
      · subst h2
        rw [if_neg h1] at hr
        rw [if_pos rfl] at hr ⊢
        have ht : t = "so:LowerPianoStaff" := by simpa using hr
        subst ht
        exact hasStr_mergeStr_of_mem _ (by simp)
      · rw [if_neg h1, if_neg h2] at hr
        cases hr

theorem est_mvGoc (wl : String) (seg : Segment) (g : List SNode) :
    ∀ t ∈ movement_types, FactT (mvGocStep wl seg g) (movement_id wl seg.movementIndex) t := by
  intro t ht
  unfold mvGocStep
  refine est_goc_type g _ rfl (fun n => rfl) ?_ ?_
  · exact hasStr_map_str ht
  · intro n
    exact hasStr_mergeStr_of_mem _ ht

theorem est_staffWork (wl : String) (k ns : Nat) (g : List SNode) :
    ∀ sidx ∈ List.range' 1 ns, ∀ t ∈ staffCreateTypes sidx,
      FactT (staffWork wl k ns g) (staff_id wl k sidx) t := by
  unfold staffWork
  refine foldl_est _ (fun sidx g => ∀ t ∈ staffCreateTypes sidx,
    FactT g (staff_id wl k sidx) t) (fun _ => True) _ g ?_ ?_ ?_ ?_ trivial
  · intro g' sidx _
    refine preserves_goc g' _ rfl ?_ ?_ ?_
    · intro n; rfl
    · intro n t h
      exact staffOnExist_types_mono sidx n t h
    · intro r n t h
      cases r <;> exact h
  · intro g' sidx _ _ t ht
    refine est_goc_type g' _ rfl (fun n => rfl) ?_ ?_
    · exact hasStr_map_str ht
    · intro n
      exact staffOnExist_types_of_mem sidx n t ht
  · intro _ _ _ _
    trivial
  · intro sidx g' h' hp hfact t ht
    exact hp.2.1 _ t (hfact t ht)

theorem est_link (wl : String) (k ns : Nat) (g : List SNode)
    (hmem : MemId g (movement_id wl k)) :
    ∀ sid ∈ staffIds wl k ns,
      FactR RF.mhs (linkMovementStaffs wl k ns g) (movement_id wl k) sid ∧
      FactR RF.smhps (linkMovementStaffs wl k ns g) (movement_id wl k) sid := by
  unfold linkMovementStaffs
  refine foldl_est _ (fun sid g =>
      FactR RF.mhs g (movement_id wl k) sid ∧ FactR RF.smhps g (movement_id wl k) sid)
    (fun g => MemId g (movement_id wl k)) _ g ?_ ?_ ?_ ?_ hmem
  · intro g' sid _
    have h1 : Preserves g' (updateLast g' (movement_id wl k) fun n =>
        { n with movementHasStaff := append_unique_id_ref n.movementHasStaff sid }) := by
      refine preserves_updateLast ?_ ?_ ?_ g' _
      · intro n; rfl
      · intro n t h; exact h
      · intro r n t h
        cases r
        · exact h
        · exact hasStr_append_unique_mono _ h
        · exact h
        · exact h
        · exact h
        · exact h
    refine preserves_trans h1 ?_
    refine preserves_updateLast ?_ ?_ ?_ _ _
    · intro n; rfl
    · intro n t h; exact h
    · intro r n t h
      cases r
      · exact h
      · exact h
      · exact hasStr_append_unique_mono _ h
      · exact h
      · exact h
      · exact h
  · intro g' sid hI _
    have hstep1 : FactR RF.mhs (updateLast g' (movement_id wl k) fun n =>
        { n with movementHasStaff := append_unique_id_ref n.movementHasStaff sid })
        (movement_id wl k) sid := by
      refine est_updateLast_ref _ _ ?_ hI ?_
      · intro n; rfl
      · intro n
        exact hasStr_append_unique_self _ _
    have hp1 : Preserves g' (updateLast g' (movement_id wl k) fun n =>
        { n with movementHasStaff := append_unique_id_ref n.movementHasStaff sid }) := by
      refine preserves_updateLast ?_ ?_ ?_ g' _
      · intro n; rfl
      · intro n t h; exact h
      · intro r n t h
        cases r
        · exact h
        · exact hasStr_append_unique_mono _ h
        · exact h
        · exact h
        · exact h
        · exact h
    have hp2 : Preserves (updateLast g' (movement_id wl k) fun n =>
        { n with movementHasStaff := append_unique_id_ref n.movementHasStaff sid })
        (updateLast (updateLast g' (movement_id wl k) fun n =>
          { n with movementHasStaff := append_unique_id_ref n.movementHasStaff sid })
          (movement_id wl k) fun n =>
          { n with sonataMovementHasPianoStaff :=
              append_unique_id_ref n.sonataMovementHasPianoStaff sid }) := by
      refine preserves_updateLast ?_ ?_ ?_ _ _
      · intro n; rfl
      · intro n t h; exact h
      · intro r n t h
        cases r
        · exact h
        · exact h
        · exact hasStr_append_unique_mono _ h
        · exact h
        · exact h
        · exact h
    constructor
    · exact hp2.2.2 RF.mhs _ sid hstep1
    · refine est_updateLast_ref _ _ ?_ (hp1.1 _ hI) ?_
      · intro n; rfl
      · intro n
        exact hasStr_append_unique_self _ _
  · intro g' h' hp hI
    exact hp.1 _ hI
  · intro sid g' h' hp hfact
    exact ⟨hp.2.2 RF.mhs _ sid hfact.1, hp.2.2 RF.smhps _ sid hfact.2⟩

end StructurePass

namespace StructurePass

theorem est_measuresFold (wl : String) (ns : Nat) (ms : List Measure) (seg : Segment)
    (g : List SNode) :
    ∀ mid ∈ segMeasureIds wl ms seg,
      (∀ t ∈ measure_types, FactT (measuresFold wl ns ms seg g) mid t) ∧
      (∀ sid ∈ staffIds wl seg.movementIndex ns,
        FactR RF.imos (measuresFold wl ns ms seg g) mid sid) := by
  intro mid hmid
  unfold segMeasureIds at hmid
  rcases List.mem_map.mp hmid with ⟨i, hi, hEq⟩
  subst hEq
  unfold measuresFold
  refine foldl_est (measureStep wl seg.movementIndex ns ms)
    (fun i g =>
      (∀ t ∈ measure_types, FactT g (measure_id wl seg.movementIndex
        (sanitize_measure_number (ms.getD i emptyMeasure).number (i + 1))) t) ∧
      (∀ sid ∈ staffIds wl seg.movementIndex ns,
        FactR RF.imos g (measure_id wl seg.movementIndex
          (sanitize_measure_number (ms.getD i emptyMeasure).number (i + 1))) sid))
    (fun _ => True) _ g ?_ ?_ ?_ ?_ trivial i hi
  · intro g' j _
    exact pres_measureStep wl seg.movementIndex ns ms g' j
  · intro g' j _ _
    constructor
    · intro t ht
      unfold measureStep
      refine est_goc_type g' _ rfl (fun n => rfl) ?_ ?_
      · exact hasStr_map_str ht
      · intro n
        exact hasStr_mergeStr_of_mem _ ht
    · intro sid hsid
      unfold measureStep
      refine est_goc_ref g' _ rfl (fun n => rfl) ?_ ?_
      · exact hasStr_map_str hsid
      · intro n
        exact foldl_append_unique_of_mem _ hsid
  · intro _ _ _ _
    trivial
  · intro j g' h' hp hfact
    exact ⟨fun t ht => hp.2.1 _ t (hfact.1 t ht),
           fun sid hsid => hp.2.2 RF.imos _ sid (hfact.2 sid hsid)⟩

theorem est_mhmFold (wl : String) (ms : List Measure) (seg : Segment) (g : List SNode)
    (hmem : MemId g (movement_id wl seg.movementIndex)) :
    ∀ mid ∈ segMeasureIds wl ms seg,
      FactR RF.mhm (mhmFold wl ms seg g) (movement_id wl seg.movementIndex) mid := by
  unfold mhmFold
  refine foldl_est _ (fun mid g => FactR RF.mhm g (movement_id wl seg.movementIndex) mid)
    (fun g => MemId g (movement_id wl seg.movementIndex)) _ g ?_ ?_ ?_ ?_ hmem
  · intro g' mid _
    refine preserves_updateLast ?_ ?_ ?_ g' _
    · intro n; rfl
    · intro n t h; exact h
    · intro r n t h
      cases r
      · exact h
      · exact h
      · exact h
      · exact hasStr_append_unique_mono _ h
      · exact h
      · exact h
  · intro g' mid hI _
    refine est_updateLast_ref _ _ ?_ hI ?_
    · intro n; rfl
    · intro n
      exact hasStr_append_unique_self _ _
  · intro g' h' hp hI
    exact hp.1 _ hI
  · intro mid g' h' hp hf
    exact hp.2.2 RF.mhm _ mid hf

theorem est_shmFold (wl : String) (ns : Nat) (ms : List Measure) (seg : Segment)
    (g : List SNode)
    (hmem : ∀ sid ∈ staffIds wl seg.movementIndex ns, MemId g sid) :
    ∀ sid ∈ staffIds wl seg.movementIndex ns, ∀ mid ∈ segMeasureIds wl ms seg,
      FactR RF.shm (shmFold wl ns ms seg g) sid mid := by
  unfold shmFold
  refine foldl_est _
    (fun sid g => ∀ mid ∈ segMeasureIds wl ms seg, FactR RF.shm g sid mid)
    (fun g => ∀ sid ∈ staffIds wl seg.movementIndex ns, MemId g sid) _ g ?_ ?_ ?_ ?_ hmem
  · intro g' sid _
    apply preserves_foldl
    intro g'' mid _
    refine preserves_updateLast ?_ ?_ ?_ g'' _
    · intro n; rfl
    · intro n t h; exact h
    · intro r n t h
      cases r
      · exact h
      · exact h
      · exact h
      · exact h
      · exact hasStr_append_unique_mono _ h
      · exact h
  · intro g' sid hI hsid
    refine foldl_est _ (fun mid g => FactR RF.shm g sid mid) (fun g => MemId g sid)
      _ g' ?_ ?_ ?_ ?_ (hI sid hsid)
    · intro g'' mid _
      refine preserves_updateLast ?_ ?_ ?_ g'' _
      · intro n; rfl
      · intro n t h; exact h
      · intro r n t h
        cases r
        · exact h
        · exact h
        · exact h
        · exact h
        · exact hasStr_append_unique_mono _ h
        · exact h
    · intro g'' mid hI2 _
      refine est_updateLast_ref _ _ ?_ hI2 ?_
      · intro n; rfl
      · intro n
        exact hasStr_append_unique_self _ _
    · intro g'' h'' hp hI2
      exact hp.1 _ hI2
    · intro mid g'' h'' hp hf
      exact hp.2.2 RF.shm _ mid hf
  · intro g' h' hp hI sid hsid
    exact hp.1 _ (hI sid hsid)
  · intro sid g' h' hp hf mid hmid
    exact hp.2.2 RF.shm _ mid (hf mid hmid)

theorem segFacts_stable {wl : String} {ns : Nat} {ms : List Measure} {seg : Segment}
    {g h : List SNode} (hp : Preserves g h)
    (hf : SegFacts wl ns ms seg g) : SegFacts wl ns ms seg h := by
  obtain ⟨h1, h2, h3, h4⟩ := hf
  refine ⟨fun t ht => hp.2.1 _ t (h1 t ht),
    fun sidx hs t ht => hp.2.1 _ t (h2 sidx hs t ht),
    fun sid hs => ⟨hp.2.2 RF.mhs _ sid (h3 sid hs).1, hp.2.2 RF.smhps _ sid (h3 sid hs).2⟩,
    fun mid hm => ⟨fun t ht => hp.2.1 _ t ((h4 mid hm).1 t ht),
      fun sid hs => hp.2.2 RF.imos _ sid ((h4 mid hm).2.1 sid hs),
      hp.2.2 RF.mhm _ mid ((h4 mid hm).2.2.1),
      fun sid hs => hp.2.2 RF.shm _ mid ((h4 mid hm).2.2.2 sid hs)⟩⟩

theorem mstep_segFacts (wl : String) (ns : Nat) (ms : List Measure) (g : List SNode)
    (seg : Segment) : SegFacts wl ns ms seg (movementStep wl ns ms g seg) := by
  unfold movementStep
  set k := seg.movementIndex with hk
  set g1 := mvGocStep wl seg g with hdg1
  set g2 := mvIdxStep wl seg g1 with hdg2
  set g3 := staffWork wl k ns g2 with hdg3
  set g4 := linkMovementStaffs wl k ns g3 with hdg4
  set g5 := measuresFold wl ns ms seg g4 with hdg5
  set g6 := mhmFold wl ms seg g5 with hdg6
  have p2 : Preserves g1 g2 := pres_mvIdxStep wl seg g1
  have p3 : Preserves g2 g3 := pres_staffWork wl k ns g2
  have p4 : Preserves g3 g4 := pres_linkMovementStaffs wl k ns g3
  have p5 : Preserves g4 g5 := pres_measuresFold wl ns ms seg g4
  have p6 : Preserves g5 g6 := pres_mhmFold wl ms seg g5
  have p7 : Preserves g6 (shmFold wl ns ms seg g6) := pres_shmFold wl ns ms seg g6
  have F1 : ∀ t ∈ movement_types, FactT (shmFold wl ns ms seg g6) (movement_id wl k) t := by
    intro t ht
    have h := est_mvGoc wl seg g t ht
    exact p7.2.1 _ t (p6.2.1 _ t (p5.2.1 _ t (p4.2.1 _ t (p3.2.1 _ t (p2.2.1 _ t h)))))
  have Fst : ∀ sidx ∈ List.range' 1 ns, ∀ t ∈ staffCreateTypes sidx,
      FactT (shmFold wl ns ms seg g6) (staff_id wl k sidx) t := by
    intro sidx hs t ht
    have h := est_staffWork wl k ns g2 sidx hs t ht
    exact p7.2.1 _ t (p6.2.1 _ t (p5.2.1 _ t (p4.2.1 _ t h)))
  have memMv3 : MemId g3 (movement_id wl k) := by
    have hmt : "mso:Movement" ∈ movement_types := by
      unfold movement_types
      exact List.mem_cons_self _ _
    have h := est_mvGoc wl seg g "mso:Movement" hmt
    exact p3.1 _ (p2.1 _ (memId_of_factT h))
  have Flink : ∀ sid ∈ staffIds wl k ns,
      FactR RF.mhs (shmFold wl ns ms seg g6) (movement_id wl k) sid ∧
      FactR RF.smhps (shmFold wl ns ms seg g6) (movement_id wl k) sid := by
    intro sid hs
    have h := est_link wl k ns g3 memMv3 sid hs
    exact ⟨p7.2.2 RF.mhs _ sid (p6.2.2 RF.mhs _ sid (p5.2.2 RF.mhs _ sid h.1)),
           p7.2.2 RF.smhps _ sid (p6.2.2 RF.smhps _ sid (p5.2.2 RF.smhps _ sid h.2))⟩
  have Fmeas : ∀ mid ∈ segMeasureIds wl ms seg,
      (∀ t ∈ measure_types, FactT g5 mid t) ∧
      (∀ sid ∈ staffIds wl k ns, FactR RF.imos g5 mid sid) :=
    est_measuresFold wl ns ms seg g4
  have memMv5 : MemId g5 (movement_id wl k) := p5.1 _ (p4.1 _ memMv3)
  have Fmhm : ∀ mid ∈ segMeasureIds wl ms seg,
      FactR RF.mhm g6 (movement_id wl k) mid :=
    est_mhmFold wl ms seg g5 memMv5
  have memStaff6 : ∀ sid ∈ staffIds wl k ns, MemId g6 sid := by
    intro sid hs
    rcases List.mem_map.mp hs with ⟨sidx, hsidx, hEq⟩
    have ht : "mso:Staff" ∈ staffCreateTypes sidx := by
      unfold staffCreateTypes staff_base_types
      exact List.mem_append_left _ (List.mem_cons_self _ _)
    have h := est_staffWork wl k ns g2 sidx hsidx "mso:Staff" ht
    rw [← hEq]
    exact p6.1 _ (p5.1 _ (p4.1 _ (memId_of_factT h)))
  have Fshm : ∀ sid ∈ staffIds wl k ns, ∀ mid ∈ segMeasureIds wl ms seg,
      FactR RF.shm (shmFold wl ns ms seg g6) sid mid :=
    est_shmFold wl ns ms seg g6 memStaff6
  refine ⟨F1, Fst, Flink, ?_⟩
  intro mid hmid
  exact ⟨fun t ht => p7.2.1 _ t (p6.2.1 _ t ((Fmeas mid hmid).1 t ht)),
         fun sid hs => p7.2.2 RF.imos _ sid (p6.2.2 RF.imos _ sid ((Fmeas mid hmid).2 sid hs)),
         p7.2.2 RF.mhm _ mid (Fmhm mid hmid),
         fun sid hs => Fshm sid hs mid hmid⟩

end StructurePass

namespace StructurePass

theorem est_workStep (wl : String) (g : List SNode) :
    ∀ t ∈ work_types, FactT (workStep wl g) (work_iri wl) t := by
  intro t ht
  unfold workStep
  refine est_goc_type g _ rfl (fun n => rfl) ?_ ?_
  · exact hasStr_map_str ht
  · intro n
    exact hasStr_mergeStr_of_mem _ ht

theorem est_workRefsFold (wl : String) (segs : List Segment) (g : List SNode)
    (hmem : MemId g (work_iri wl)) :
    ∀ mid ∈ segs.map (fun seg => movement_id wl seg.movementIndex),
      FactR RF.hm (workRefsFold wl segs g) (work_iri wl) mid := by
  unfold workRefsFold
  refine foldl_est _ (fun mid g => FactR RF.hm g (work_iri wl) mid)
    (fun g => MemId g (work_iri wl)) _ g ?_ ?_ ?_ ?_ hmem
  · intro g' mid _
    refine preserves_updateLast ?_ ?_ ?_ g' _
    · intro n; rfl
    · intro n t h; exact h
    · intro r n t h
      cases r
      · exact hasStr_append_unique_mono _ h
      · exact h
      · exact h
      · exact h
      · exact h
      · exact h
  · intro g' mid hI _
    refine est_updateLast_ref _ _ ?_ hI ?_
    · intro n; rfl
    · intro n
      exact hasStr_append_unique_self _ _
  · intro g' h' hp hI
    exact hp.1 _ hI
  · intro mid g' h' hp hf
    exact hp.2.2 RF.hm _ mid hf

theorem extend_establishes (wl : String) (ms : List Measure) (ns : Nat)
    (g : List SNode) : AllFacts wl ms ns (extend_metadata_with_structure wl ms ns g) := by
  unfold extend_metadata_with_structure AllFacts
  set segs := detect_movements ms with hsegs
  set h0 := workStep wl g with hd0
  set h1 := segs.foldl (movementStep wl ns ms) h0 with hd1
  have p01 : Preserves h0 h1 :=
    preserves_foldl _ segs h0 (fun g' s _ => pres_movementStep wl ns ms g' s)
  have pwf : Preserves h1 (workRefsFold wl segs h1) := pres_workRefsFold wl segs h1
  have hwmem : "mo:MusicalWork" ∈ work_types := by
    unfold work_types
    exact List.mem_cons_self _ _
  refine ⟨?_, ?_, ?_⟩
  · intro t ht
    exact pwf.2.1 _ t (p01.2.1 _ t (est_workStep wl g t ht))
  · intro seg hseg
    refine segFacts_stable pwf ?_
    exact foldl_est (movementStep wl ns ms) (fun seg g => SegFacts wl ns ms seg g)
      (fun _ => True) segs h0
      (fun g' s _ => pres_movementStep wl ns ms g' s)
      (fun g' s _ _ => mstep_segFacts wl ns ms g' s)
      (fun _ _ _ _ => trivial)
      (fun s g' h' hp hf => segFacts_stable hp hf)
      trivial seg hseg
  · intro seg hseg
    have hmem : MemId h1 (work_iri wl) :=
      p01.1 _ (memId_of_factT (est_workStep wl g "mo:MusicalWork" hwmem))
    have hmid : movement_id wl seg.movementIndex ∈
        segs.map (fun seg => movement_id wl seg.movementIndex) :=
      List.mem_map_of_mem _ hseg
    exact est_workRefsFold wl segs h1 hmem _ hmid

theorem fact_types_at {h gref : List SNode} (hinv : h.map core = gref.map core)
    {s : String} {L : List String} (hf : ∀ t ∈ L, FactT gref s t)
    {n : SNode} (hn : lookupLast h s = some n) :
    ∀ t ∈ L, hasStr n.types t = true := by
  intro t ht
  obtain ⟨p, hp, hpt⟩ := factT_map_core hinv.symm (hf t ht)
  rw [hn] at hp
  injection hp with he
  rw [he]
  exact hpt

theorem fact_ref_at {h gref : List SNode} (hinv : h.map core = gref.map core)
    {r : RF} {s t : String} (hf : FactR r gref s t)
    {n : SNode} (hn : lookupLast h s = some n) :
    hasStr (getRF r n) t = true := by
  obtain ⟨p, hp, hpt⟩ := factR_map_core hinv.symm hf
  rw [hn] at hp
  injection hp with he
  rw [he]
  exact hpt

theorem noop_goc_core {h gref : List SNode} {nid : String} {init : SNode}
    {onExist : SNode → SNode}
    (hinv : h.map core = gref.map core) (hmem : MemId gref nid)
    (hcore : ∀ n, lookupLast h nid = some n → core (onExist n) = core n) :
    (goc h nid init onExist).map core = gref.map core := by
  unfold goc
  cases hg : lookupLast h nid with
  | none =>
    obtain ⟨p, hp⟩ := memId_map_core hinv.symm hmem
    rw [hg] at hp
    cases hp
  | some m =>
    rw [updateLast_map_core_target hg (hcore m hg)]
    exact hinv

theorem noop_updateLast_core {h gref : List SNode} {s : String} {f : SNode → SNode}
    (hinv : h.map core = gref.map core) (hmem : MemId gref s)
    (hcore : ∀ n, lookupLast h s = some n → core (f n) = core n) :
    (updateLast h s f).map core = gref.map core := by
  obtain ⟨m, hm⟩ := memId_map_core hinv.symm hmem
  rw [updateLast_map_core_target hm (hcore m hm)]
  exact hinv

theorem staffOnExist_types_eq (sidx : Nat) (n : SNode)
    (hall : ∀ t ∈ staffCreateTypes sidx, hasStr n.types t = true) :
    (if sidx = 2 then
        mergeStr ["so:LowerPianoStaff"]
          (if sidx = 1 then mergeStr ["so:UpperPianoStaff"] (mergeStr staff_base_types n.types)
            else mergeStr staff_base_types n.types)
      else if sidx = 1 then mergeStr ["so:UpperPianoStaff"] (mergeStr staff_base_types n.types)
        else mergeStr staff_base_types n.types) = n.types := by
  have hbase : mergeStr staff_base_types n.types = n.types :=
    mergeStr_eq_of_all fun t ht =>
      hall t (by unfold staffCreateTypes; exact List.mem_append_left _ ht)
  by_cases h1 : sidx = 1
  · subst h1
    rw [if_neg (by decide), if_pos rfl, hbase]
    refine mergeStr_eq_of_all ?_
    intro t ht
    have ht' : t = "so:UpperPianoStaff" := by simpa using ht
    subst ht'
    apply hall
    unfold staffCreateTypes
    refine List.mem_append_right _ ?_
    rw [if_pos rfl]
    simp
  · by_cases h2 : sidx = 2
    · subst h2
      rw [if_pos rfl, if_neg h1, hbase]
      refine mergeStr_eq_of_all ?_
      intro t ht
      have ht' : t = "so:LowerPianoStaff" := by simpa using ht
      subst ht'
      apply hall
      unfold staffCreateTypes
      refine List.mem_append_right _ ?_
      rw [if_neg h1, if_pos rfl]
      simp
    · rw [if_neg h2, if_neg h1, hbase]

end StructurePass

namespace StructurePass

theorem noop_mvGocStep {wl : String} {ns : Nat} {ms : List Measure} {seg : Segment}
    {gref : List SNode} (hsf : SegFacts wl ns ms seg gref)
    {g : List SNode} (hinv : g.map core = gref.map core) :
    (mvGocStep wl seg g).map core = gref.map core := by
  unfold mvGocStep
  refine noop_goc_core hinv ?_ ?_
  · exact memId_of_factT (hsf.1 "mso:Movement"
      (by unfold movement_types; exact List.mem_cons_self _ _))
  · intro n hn
    have hall := fact_types_at hinv hsf.1 hn
    show core { n with types := mergeStr movement_types n.types } = core n
    rw [mergeStr_eq_of_all hall]

theorem noop_mvIdxStep {wl : String} {ns : Nat} {ms : List Measure} {seg : Segment}
    {gref : List SNode} (hsf : SegFacts wl ns ms seg gref)
    {g : List SNode} (hinv : g.map core = gref.map core) :
    (mvIdxStep wl seg g).map core = gref.map core := by
  unfold mvIdxStep
  refine noop_updateLast_core hinv ?_ ?_
  · exact memId_of_factT (hsf.1 "mso:Movement"
      (by unfold movement_types; exact List.mem_cons_self _ _))
  · intro n hn
    rfl

theorem noop_staffWork {wl : String} {ns : Nat} {ms : List Measure} {seg : Segment}
    {gref : List SNode} (hsf : SegFacts wl ns ms seg gref)
    {g : List SNode} (hinv : g.map core = gref.map core) :
    (staffWork wl seg.movementIndex ns g).map core = gref.map core := by
  unfold staffWork
  refine foldl_inv _ (fun h => h.map core = gref.map core) _ g ?_ hinv
  intro g' sidx hs hinv'
  refine noop_goc_core hinv' ?_ ?_
  · exact memId_of_factT (hsf.2.1 sidx hs "mso:Staff"
      (by unfold staffCreateTypes staff_base_types
          exact List.mem_append_left _ (List.mem_cons_self _ _)))
  · intro n hn
    have hall := fact_types_at hinv' (hsf.2.1 sidx hs) hn
    show core { n with
        types := (if sidx = 2 then
            mergeStr ["so:LowerPianoStaff"]
              (if sidx = 1 then
                mergeStr ["so:UpperPianoStaff"] (mergeStr staff_base_types n.types)
                else mergeStr staff_base_types n.types)
          else if sidx = 1 then
            mergeStr ["so:UpperPianoStaff"] (mergeStr staff_base_types n.types)
            else mergeStr staff_base_types n.types),
        staffIndex := some (JVal.jint (Int.ofNat sidx)) } = core n
    rw [staffOnExist_types_eq sidx n hall]
    rfl

theorem noop_linkMovementStaffs {wl : String} {ns : Nat} {ms : List Measure} {seg : Segment}
    {gref : List SNode} (hsf : SegFacts wl ns ms seg gref)
    {g : List SNode} (hinv : g.map core = gref.map core) :
    (linkMovementStaffs wl seg.movementIndex ns g).map core = gref.map core := by
  unfold linkMovementStaffs
  refine foldl_inv _ (fun h => h.map core = gref.map core) _ g ?_ hinv
  intro g' sid hs hinv'
  have hmemMv : MemId gref (movement_id wl seg.movementIndex) :=
    memId_of_factT (hsf.1 "mso:Movement"
      (by unfold movement_types; exact List.mem_cons_self _ _))
  have h1 : (updateLast g' (movement_id wl seg.movementIndex) fun n =>
      { n with movementHasStaff := append_unique_id_ref n.movementHasStaff sid }).map core
        = gref.map core := by
    refine noop_updateLast_core hinv' hmemMv ?_
    intro n hn
    have hr : hasStr n.movementHasStaff sid = true :=
      fact_ref_at hinv' (hsf.2.2.1 sid hs).1 hn
    show core { n with movementHasStaff := append_unique_id_ref n.movementHasStaff sid } = core n
    rw [append_unique_eq_of_hasStr hr]
  refine noop_updateLast_core h1 hmemMv ?_
  intro n hn
  have hr : hasStr n.sonataMovementHasPianoStaff sid = true :=
    fact_ref_at h1 (hsf.2.2.1 sid hs).2 hn
  show core { n with sonataMovementHasPianoStaff :=
      append_unique_id_ref n.sonataMovementHasPianoStaff sid } = core n
  rw [append_unique_eq_of_hasStr hr]

theorem noop_measuresFold {wl : String} {ns : Nat} {ms : List Measure} {seg : Segment}
    {gref : List SNode} (hsf : SegFacts wl ns ms seg gref)
    {g : List SNode} (hinv : g.map core = gref.map core) :
    (measuresFold wl ns ms seg g).map core = gref.map core := by
  unfold measuresFold
  refine foldl_inv _ (fun h => h.map core = gref.map core) _ g ?_ hinv
  intro g' i hi hinv'
  have hmid : measure_id wl seg.movementIndex
      (sanitize_measure_number (ms.getD i emptyMeasure).number (i + 1))
      ∈ segMeasureIds wl ms seg := by
    unfold segMeasureIds
    exact List.mem_map_of_mem _ hi
  have hfm := hsf.2.2.2 _ hmid
  unfold measureStep
  refine noop_goc_core hinv' ?_ ?_
  · exact memId_of_factT (hfm.1 "mso:Measure"
      (by unfold measure_types; exact List.mem_cons_self _ _))
  · intro n hn
    have hallT := fact_types_at hinv' hfm.1 hn
    have hallR : ∀ sid ∈ staffIds wl seg.movementIndex ns,
        hasStr n.isMeasureOfStaff sid = true := by
      intro sid hs
      exact fact_ref_at hinv' (hfm.2.1 sid hs) hn
    show core { n with
        types := mergeStr measure_types n.types,
        isMeasureOfStaff :=
          (staffIds wl seg.movementIndex ns).foldl append_unique_id_ref n.isMeasureOfStaff }
      = core n
    rw [mergeStr_eq_of_all hallT, foldl_append_unique_eq_of_all hallR]

theorem noop_mhmFold {wl : String} {ns : Nat} {ms : List Measure} {seg : Segment}
    {gref : List SNode} (hsf : SegFacts wl ns ms seg gref)
    {g : List SNode} (hinv : g.map core = gref.map core) :
    (mhmFold wl ms seg g).map core = gref.map core := by
  unfold mhmFold
  refine foldl_inv _ (fun h => h.map core = gref.map core) _ g ?_ hinv
  intro g' mid hmid hinv'
  have hmemMv : MemId gref (movement_id wl seg.movementIndex) :=
    memId_of_factT (hsf.1 "mso:Movement"
      (by unfold movement_types; exact List.mem_cons_self _ _))
  refine noop_updateLast_core hinv' hmemMv ?_
  intro n hn
  have hr : hasStr n.movementHasMeasure mid = true :=
    fact_ref_at hinv' (hsf.2.2.2 mid hmid).2.2.1 hn
  show core { n with movementHasMeasure := append_unique_id_ref n.movementHasMeasure mid } = core n
  rw [append_unique_eq_of_hasStr hr]

theorem noop_shmFold {wl : String} {ns : Nat} {ms : List Measure} {seg : Segment}
    {gref : List SNode} (hsf : SegFacts wl ns ms seg gref)
    {g : List SNode} (hinv : g.map core = gref.map core) :
    (shmFold wl ns ms seg g).map core = gref.map core := by
  unfold shmFold
  refine foldl_inv _ (fun h => h.map core = gref.map core) _ g ?_ hinv
  intro g' sid hs hinv'
  refine foldl_inv _ (fun h => h.map core = gref.map core) _ g' ?_ hinv'
  intro g'' mid hmid hinv''
  have hmemS : MemId gref sid := by
    rcases List.mem_map.mp hs with ⟨sidx, hsidx, hEq⟩
    exact hEq ▸ memId_of_factT (hsf.2.1 sidx hsidx "mso:Staff"
      (by unfold staffCreateTypes staff_base_types
          exact List.mem_append_left _ (List.mem_cons_self _ _)))
  refine noop_updateLast_core hinv'' hmemS ?_
  intro n hn
  have hr : hasStr n.staffHasMeasure mid = true :=
    fact_ref_at hinv'' ((hsf.2.2.2 mid hmid).2.2.2 sid hs) hn
  show core { n with staffHasMeasure := append_unique_id_ref n.staffHasMeasure mid } = core n
  rw [append_unique_eq_of_hasStr hr]

theorem noop_movementStep {wl : String} {ns : Nat} {ms : List Measure} {seg : Segment}
    {gref : List SNode} (hsf : SegFacts wl ns ms seg gref)
    {g : List SNode} (hinv : g.map core = gref.map core) :
    (movementStep wl ns ms g seg).map core = gref.map core := by
  unfold movementStep
  exact noop_shmFold hsf (noop_mhmFold hsf (noop_measuresFold hsf
    (noop_linkMovementStaffs hsf (noop_staffWork hsf
      (noop_mvIdxStep hsf (noop_mvGocStep hsf hinv))))))

theorem noop_workStep {wl : String} {ms : List Measure} {ns : Nat}
    {gref : List SNode} (hAF : AllFacts wl ms ns gref)
    {g : List SNode} (hinv : g.map core = gref.map core) :
    (workStep wl g).map core = gref.map core := by
  unfold workStep
  refine noop_goc_core hinv ?_ ?_
  · exact memId_of_factT (hAF.1 "mo:MusicalWork"
      (by unfold work_types; exact List.mem_cons_self _ _))
  · intro n hn
    have hall := fact_types_at hinv hAF.1 hn
    show core { n with types := mergeStr work_types n.types } = core n
    rw [mergeStr_eq_of_all hall]

theorem noop_workRefsFold {wl : String} {ms : List Measure} {ns : Nat}
    {gref : List SNode} (hAF : AllFacts wl ms ns gref)
    {g : List SNode} (hinv : g.map core = gref.map core) :
    (workRefsFold wl (detect_movements ms) g).map core = gref.map core := by
  unfold workRefsFold
  refine foldl_inv _ (fun h => h.map core = gref.map core) _ g ?_ hinv
  intro g' mid hmid hinv'
  rcases List.mem_map.mp hmid with ⟨seg, hseg, hEq⟩
  have hmemW : MemId gref (work_iri wl) :=
    memId_of_factT (hAF.1 "mo:MusicalWork"
      (by unfold work_types; exact List.mem_cons_self _ _))
  refine noop_updateLast_core hinv' hmemW ?_
  intro n hn
  have hfact : FactR RF.hm gref (work_iri wl) mid := hEq ▸ hAF.2.2 seg hseg
  have hr : hasStr n.hasMovement mid = true := fact_ref_at hinv' hfact hn
  show core { n with hasMovement := append_unique_id_ref n.hasMovement mid } = core n
  rw [append_unique_eq_of_hasStr hr]

theorem noop_run {wl : String} {ms : List Measure} {ns : Nat}
    {gref : List SNode} (hAF : AllFacts wl ms ns gref)
    {g : List SNode} (hinv : g.map core = gref.map core) :
    (extend_metadata_with_structure wl ms ns g).map core = gref.map core := by
  unfold extend_metadata_with_structure
  refine noop_workRefsFold hAF ?_
  refine foldl_inv _ (fun h => h.map core = gref.map core) _ _ ?_ (noop_workStep hAF hinv)
  intro g' seg hseg hinv'
  exact noop_movementStep (hAF.2.1 seg hseg) hinv'

theorem edges_congr_core : ∀ {g h : List SNode}, g.map core = h.map core →
    ∀ r, edges (getRF r) g = edges (getRF r) h := by
  intro g
  induction g with
  | nil =>
    intro h hgh r
    cases h with
    | nil => rfl
    | cons m mrest => simp at hgh
  | cons n rest ih =>
    intro h hgh r
    cases h with
    | nil => simp at hgh
    | cons m mrest =>
      simp only [List.map_cons, List.cons.injEq] at hgh
      obtain ⟨hnm, hrest⟩ := hgh
      have hid : n.id = m.id := by
        rw [← core_id n, ← core_id m, hnm]
      have hrf : getRF r n = getRF r m := by
        rw [← getRF_core r n, ← getRF_core r m, hnm]
      have htail := ih hrest r
      unfold edges at htail ⊢
      rw [List.flatMap_cons, List.flatMap_cons, htail, hid, hrf]

end StructurePass

/-- Claim C3: running the Structure Builder (`extend_metadata_with_structure`)
twice over the same graph document produces a graph with the same node count
and the same `hasMovement`, `movementHasStaff`, `movementHasMeasure`,
`staffHasMeasure` and `isMeasureOfStaff` edge sets as running it once:
re-running creates no duplicate nodes and no duplicate edges. -/
theorem C3_structure_builder_idempotent (wl : String) (ms : List Measure)
    (ns : Nat) (g : List StructurePass.SNode) :
    (StructurePass.extend_metadata_with_structure wl ms ns
        (StructurePass.extend_metadata_with_structure wl ms ns g)).length
      = (StructurePass.extend_metadata_with_structure wl ms ns g).length ∧
    StructurePass.edges (fun n => n.hasMovement)
        (StructurePass.extend_metadata_with_structure wl ms ns
          (StructurePass.extend_metadata_with_structure wl ms ns g))
      = StructurePass.edges (fun n => n.hasMovement)
          (StructurePass.extend_metadata_with_structure wl ms ns g) ∧
    StructurePass.edges (fun n => n.movementHasStaff)
        (StructurePass.extend_metadata_with_structure wl ms ns
          (StructurePass.extend_metadata_with_structure wl ms ns g))
      = StructurePass.edges (fun n => n.movementHasStaff)
          (StructurePass.extend_metadata_with_structure wl ms ns g) ∧
    StructurePass.edges (fun n => n.movementHasMeasure)
        (StructurePass.extend_metadata_with_structure wl ms ns
          (StructurePass.extend_metadata_with_structure wl ms ns g))
      = StructurePass.edges (fun n => n.movementHasMeasure)
          (StructurePass.extend_metadata_with_structure wl ms ns g) ∧
    StructurePass.edges (fun n => n.staffHasMeasure)
        (StructurePass.extend_metadata_with_structure wl ms ns
          (StructurePass.extend_metadata_with_structure wl ms ns g))
      = StructurePass.edges (fun n => n.staffHasMeasure)
          (StructurePass.extend_metadata_with_structure wl ms ns g) ∧
    StructurePass.edges (fun n => n.isMeasureOfStaff)
        (StructurePass.extend_metadata_with_structure wl ms ns
          (StructurePass.extend_metadata_with_structure wl ms ns g))
      = StructurePass.edges (fun n => n.isMeasureOfStaff)
          (StructurePass.extend_metadata_with_structure wl ms ns g) := by
  have hAF : StructurePass.AllFacts wl ms ns
      (StructurePass.extend_metadata_with_structure wl ms ns g) :=
    StructurePass.extend_establishes wl ms ns g
  have hm : (StructurePass.extend_metadata_with_structure wl ms ns
        (StructurePass.extend_metadata_with_structure wl ms ns g)).map StructurePass.core
      = (StructurePass.extend_metadata_with_structure wl ms ns g).map StructurePass.core :=
    StructurePass.noop_run hAF rfl
  refine ⟨?_, ?_, ?_, ?_, ?_, ?_⟩
  · have hlen := congrArg List.length hm
    simpa using hlen
  · exact StructurePass.edges_congr_core hm StructurePass.RF.hm
  · exact StructurePass.edges_congr_core hm StructurePass.RF.mhs
  · exact StructurePass.edges_congr_core hm StructurePass.RF.mhm
  · exact StructurePass.edges_congr_core hm StructurePass.RF.shm
  · exact StructurePass.edges_congr_core hm StructurePass.RF.imos
